import Mathlib

/-!
Verification of the SM64 route optimizer core (`src/optimize.py`,
`src/optimize_helpers.py`) against its natural-language specification.

The Python code is shallowly embedded: star IDs are strings, times are
rationals, Python `dict`s become association lists (preserving insertion
order) or total functions, Python `set`s become `Finset String`, the
`heapq` min-heap becomes a list kept sorted on the heap key, and the two
`while` loops are expressed with explicit fuel together with lemmas showing
the chosen fuel renders the fuel bound unreachable.  Exceptions are
modelled with `Except`.
-/

namespace SM64

abbrev StarId := String
abbrev Time := ℚ

/-- `NUM_STARS_IN_ROUTE` from `src/constants.py`. -/
def NUM_STARS_IN_ROUTE : ℤ := 70

/-- `DataKeys.STAR_DDD1_ID` from `src/constants.py`. -/
def STAR_DDD1_ID : StarId := "DDD1"

/-- `ALL_LOCATIONS` from `src/constants.py`. -/
def ALL_LOCATIONS : Finset String :=
  {"basement", "courtyard", "lobby", "tippy", "upstairs"}

/-- `UPPER_LEVEL_LOCATIONS` from `src/constants.py`. -/
def UPPER_LEVEL_LOCATIONS : Finset String := {"tippy", "upstairs"}

/-- The two exceptions of `src/exceptions.py` that the optimizer core
raises (`InsufficientRemainingStars`, `NoValidRoutePossible`). -/
inductive OptError where
  | insufficientRemainingStars
  | noValidRoutePossible
deriving DecidableEq, Repr

instance {ε α : Type _} [DecidableEq ε] [DecidableEq α] :
    DecidableEq (Except ε α)
  | .error e, .error f => decidable_of_iff (e = f) (by simp)
  | .error _, .ok _ => isFalse (by simp)
  | .ok _, .error _ => isFalse (by simp)
  | .ok a, .ok b => decidable_of_iff (a = b) (by simp)

/-- A heap entry of `add_non_special_stars_to_star_set`: the tuple
`(stars_required, (time, star_id))` that the Python code pushes onto its
`heapq` min-heap. -/
abbrev HeapEntry := ℤ × (Time × StarId)

/-- The lexicographic order on heap entries used by Python's tuple
comparison inside `heapq`. -/
def heapEntryLe (a b : HeapEntry) : Bool :=
  decide (a.1 < b.1) ||
    (decide (a.1 = b.1) &&
      (decide (a.2.1 < b.2.1) ||
        (decide (a.2.1 = b.2.1) && decide (a.2.2 ≤ b.2.2))))

/-- Insert an entry into a heap kept as a list sorted on `heapEntryLe`;
this models `heapq.heappush`, whose observable behaviour (popping a
minimal entry first) the sorted list reproduces. -/
def heapPush (x : HeapEntry) : List HeapEntry → List HeapEntry
  | [] => [x]
  | y :: rest => if heapEntryLe x y then x :: y :: rest else y :: heapPush x rest

/-- The inner `while star_time_tuple_to_add is None` scan of
`add_non_special_stars_to_star_set` (`src/optimize.py` lines 249-276):
walk the sorted star-time-tuple list from the current cursor, skipping
stars that are already included or excluded or in a disallowed location;
return the first star whose requirement is met, pushing requirement-unmet
stars onto the heap; running off the end raises
`InsufficientRemainingStars`. -/
def scanForStar (locs : StarId → String) (req : StarId → ℤ)
    (allowed : Finset String) (included excluded : Finset StarId)
    (count : ℤ) (heap : List HeapEntry) :
    List (Time × StarId) →
      Except OptError ((Time × StarId) × List (Time × StarId) × List HeapEntry)
  | [] => .error .insufficientRemainingStars
  | t :: rest =>
    if t.2 ∈ included ∨ t.2 ∈ excluded ∨ locs t.2 ∉ allowed then
      scanForStar locs req allowed included excluded count heap rest
    else if req t.2 ≤ count then
      .ok (t, rest, heap)
    else
      scanForStar locs req allowed included excluded count
        (heapPush (req t.2, t) heap) rest

/-- Lines 242-276 of `src/optimize.py`: obtain the next star to add,
either by popping the heap when its minimal entry's requirement is met
(`if heap and heap[0][STAR_REQUIREMENT_INDEX] <= star_count`), or by
scanning forward through the star-time-tuple list. -/
def pickStar (locs : StarId → String) (req : StarId → ℤ)
    (allowed : Finset String) (included excluded : Finset StarId)
    (count : ℤ) (heap : List HeapEntry) (rest : List (Time × StarId)) :
    Except OptError ((Time × StarId) × List (Time × StarId) × List HeapEntry) :=
  match heap with
  | e :: heapRest =>
    if e.1 ≤ count then .ok (e.2, rest, heapRest)
    else scanForStar locs req allowed included excluded count (e :: heapRest) rest
  | [] => scanForStar locs req allowed included excluded count [] rest

/-- The outer `while star_count < max_star_count` loop of
`add_non_special_stars_to_star_set` (`src/optimize.py` lines 241-291),
with explicit fuel.  Each iteration strictly increases the running star
count by at least one, so the fuel `(maxCount - count).toNat` supplied by
`add_non_special_stars_to_star_set` below is always sufficient; when it
runs out the loop raises the same `insufficientRemainingStars` the source
raises when it runs out of stars, keeping the embedding's observable
behaviour aligned with the source either way. -/
def addStarsLoop (locs : StarId → String) (req : StarId → ℤ)
    (hundred : Finset StarId) (allowed : Finset String)
    (excluded : Finset StarId) (maxCount : ℤ) :
    Nat → Time → ℤ → Finset StarId → List HeapEntry → List (Time × StarId) →
      Except OptError (Time × Finset StarId)
  | fuel, totalTime, count, included, heap, rest =>
    if count < maxCount then
      match fuel with
      | 0 => .error .insufficientRemainingStars
      | fuel + 1 =>
        match pickStar locs req allowed included excluded count heap rest with
        | .error e => .error e
        | .ok ((time, id), rest', heap') =>
          let mult : ℤ := if id ∈ hundred then 2 else 1
          addStarsLoop locs req hundred allowed excluded maxCount
            fuel (totalTime + (mult : ℚ) * time) (count + mult)
            (insert id included) heap' rest'
    else
      .ok (totalTime, included)

/-- `add_non_special_stars_to_star_set` (`src/optimize.py` lines 174-291):
greedily extend `included` with stars from `star_time_tuples` until the
running star count reaches `max_star_count`, staging requirement-unmet
stars on a min-heap keyed by their star requirement. -/
def add_non_special_stars_to_star_set (starting_time : Time)
    (starting_star_count max_star_count : ℤ) (allowed_locations : Finset String)
    (included_set excluded_set : Finset StarId)
    (star_time_tuples : List (Time × StarId)) (hundred_coin_star_ids : Finset StarId)
    (star_locations : StarId → String) (num_stars_required : StarId → ℤ) :
    Except OptError (Time × Finset StarId) :=
  addStarsLoop star_locations num_stars_required hundred_coin_star_ids
    allowed_locations excluded_set max_star_count
    (max_star_count - starting_star_count).toNat
    starting_time starting_star_count included_set [] star_time_tuples

/-- The set of star IDs occurring in some adjacency value list (the
possible `dependant`s). -/
def dependantsUniverse (adj : List (StarId × List StarId)) : Finset StarId :=
  (adj.flatMap Prod.snd).toFinset

/-- One step of the `while stack` loop of the inner `_find_descendants`
(`src/optimize_helpers.py` lines 95-112), with explicit fuel: pop the top
of the stack, and for each of its dependants not yet recorded, record the
dependant together with its 100-coin alternative (when one exists) and
push the dependant.  The head of the Lean list is the top of the Python
stack (Python pops from the right of `stack`).  Fuel
`1 + 2 * (dependantsUniverse adj).card` always suffices (each iteration
pops one element, and every push accompanies a fresh dependant), so the
fuel-exhausted branch is unreachable from `find_descendants`. -/
def findDescendantsLoop (adj : List (StarId × List StarId))
    (alts : List (StarId × StarId)) :
    Nat → Finset StarId → List StarId → Finset StarId
  | 0, descendants, _ => descendants
  | _, descendants, [] => descendants
  | fuel + 1, descendants, cur :: stackRest =>
    match adj.lookup cur with
    | none => findDescendantsLoop adj alts fuel descendants stackRest
    | some deps =>
      let step := deps.foldl
        (fun (st : Finset StarId × List StarId) dep =>
          if dep ∈ st.1 then st
          else
            let withAlt :=
              match alts.lookup dep with
              | some a => insert a (insert dep st.1)
              | none => insert dep st.1
            (withAlt, dep :: st.2))
        (descendants, [])
      findDescendantsLoop adj alts fuel step.1 (step.2 ++ stackRest)

/-- The `functools.cache` lookup-or-compute semantics of the inner
`_find_descendants` (`src/optimize_helpers.py` lines 84-114): consult the
cache for `star_id`; on a miss, run the depth-first traversal and record
the result under `star_id`. -/
def cacheFindDescendants (adj : List (StarId × List StarId))
    (alts : List (StarId × StarId)) (cache : List (StarId × Finset StarId))
    (star_id : StarId) : Finset StarId × List (StarId × Finset StarId) :=
  match cache.lookup star_id with
  | some r => (r, cache)
  | none =>
    let r := findDescendantsLoop adj alts
      (1 + 2 * (dependantsUniverse adj).card) ∅ [star_id]
    (r, (star_id, r) :: cache)

/-- `find_descendants` (`src/optimize_helpers.py` lines 64-116): the set of
all transitive dependants of `star_id` per the adjacency mapping, each
dependant accompanied by its 100-coin alternative when one exists.  The
`functools.cache` of the source decorates an *inner* function object that
is recreated on every call of the outer `find_descendants`, so every call
starts from an empty cache (`[]` below); no cache state survives from one
`find_descendants` call to the next. -/
def find_descendants (star_id : StarId) (adj : List (StarId × List StarId))
    (alts : List (StarId × StarId)) : Finset StarId :=
  (cacheFindDescendants adj alts [] star_id).1

/-- The initial in-degree table of `get_topological_sort_of_prerequisites`
(`src/optimize_helpers.py` lines 26-30): a `defaultdict(int)` counting,
with multiplicity, the edges into each star. -/
def initInDegree (adj : List (StarId × List StarId)) : StarId → ℤ :=
  fun s => ((adj.flatMap Prod.snd).count s : ℤ)

/-- The keys of the adjacency mapping, in insertion order. -/
def adjKeys (adj : List (StarId × List StarId)) : List StarId :=
  adj.map Prod.fst

/-- The body of the `for dependant in adjacency_list_dict[prerequisite]`
loop of Kahn's algorithm (`src/optimize_helpers.py` lines 55-59):
decrement each dependant's in-degree and enqueue dependants that reach
in-degree zero and are themselves keys.  The queue is represented with its
head at the popping end of the Python `deque` (Python pops from the right
and appends new work on the left, so `appendleft` becomes appending at the
end of the representation list). -/
def kahnFold (adj : List (StarId × List StarId)) (deps : List StarId)
    (indeg : StarId → ℤ) (queue : List StarId) : (StarId → ℤ) × List StarId :=
  deps.foldl
    (fun (st : (StarId → ℤ) × List StarId) dep =>
      let indeg' : StarId → ℤ := fun s => if s = dep then st.1 dep - 1 else st.1 s
      if st.1 dep - 1 = 0 ∧ dep ∈ adjKeys adj then (indeg', st.2 ++ [dep])
      else (indeg', st.2))
    (indeg, queue)

/-- The `while queue` loop of `get_topological_sort_of_prerequisites`
(`src/optimize_helpers.py` lines 47-59), with explicit fuel: pop a
zero-in-degree key, append it to the output, decrement its dependants'
in-degrees and enqueue freshly-zeroed keys.  Fuel `2 * adj.length + 1`
always suffices when the keys are distinct (each key enters the queue at
most once), so the fuel-exhausted branch is unreachable in that case. -/
def kahnLoop (adj : List (StarId × List StarId)) :
    Nat → (StarId → ℤ) → List StarId → List StarId → List StarId
  | 0, _, _, out => out
  | _, _, [], out => out
  | fuel + 1, indeg, q :: qRest, out =>
    let deps := (adj.lookup q).getD []
    let step := kahnFold adj deps indeg qRest
    kahnLoop adj fuel step.1 step.2 (out ++ [q])

/-- `get_topological_sort_of_prerequisites` (`src/optimize_helpers.py`
lines 8-61): Kahn's algorithm over the adjacency mapping's keys. -/
def get_topological_sort_of_prerequisites (adj : List (StarId × List StarId)) :
    List StarId :=
  let indeg := initInDegree adj
  let seeds := ((adjKeys adj).filter (fun p => indeg p = 0)).reverse
  kahnLoop adj (2 * adj.length + 1) indeg seeds []

/-- `_get_star_and_alternative_id_pairs` (`src/optimize.py` lines
352-400): pair a base star with its 100-coin alternative, in both
orders, each order kept only when its first member is eligible and not
already excluded. -/
def get_star_and_alternative_id_pairs (alts : List (StarId × StarId))
    (eligible : Finset StarId) (base_star_id : StarId)
    (excluded_star_id_set : Finset StarId) : List (StarId × Option StarId) :=
  let altOpt : Option StarId :=
    match alts.lookup base_star_id with
    | some a =>
      if a ∈ eligible ∧ a ∉ excluded_star_id_set then some a else none
    | none => none
  let baseOpt : Option StarId :=
    if base_star_id ∈ eligible ∧ base_star_id ∉ excluded_star_id_set then
      some base_star_id
    else none
  (match baseOpt with | some b => [(b, altOpt)] | none => []) ++
    (match altOpt with | some a => [(a, baseOpt)] | none => [])

/-- `_generate_valid_partitions_recursive` (`src/optimize.py` lines
402-485), recursing on the remaining suffix of the ordered special-star
list instead of an index.  Faithfully reproduces the source's control
flow, including the absence of a `return` after the `DDD1` branch (line
448): when the current star is `DDD1` the function both skips it *and*
falls through to the include/exclude branches. -/
def generateValidPartitionsRecursive (adj : List (StarId × List StarId))
    (alts : List (StarId × StarId)) (eligible : Finset StarId) :
    List StarId → Finset StarId → Finset StarId →
      List (Finset StarId × Finset StarId)
  | [], included, excluded => [(included, excluded)]
  | cur :: rest, included, excluded =>
    (if cur = STAR_DDD1_ID then
      generateValidPartitionsRecursive adj alts eligible rest included excluded
    else []) ++
    ((get_star_and_alternative_id_pairs alts eligible cur excluded).flatMap
      (fun pr =>
        let nextIncluded := insert pr.1 included
        let nextExcluded :=
          match pr.2 with
          | some e => insert e excluded
          | none => excluded
        generateValidPartitionsRecursive adj alts eligible rest
          nextIncluded nextExcluded)) ++
    (let base := excluded ∪ {cur} ∪ find_descendants cur adj alts
     let nextExcluded :=
       match alts.lookup cur with
       | some a => insert a base
       | none => base
     generateValidPartitionsRecursive adj alts eligible rest included
       nextExcluded)

/-- `get_valid_special_star_partitions` (`src/optimize.py` lines 294-499):
enumerate the (included, excluded) partitions of the special stars,
seeding every enumeration with `DDD1` or its 100-coin alternative. -/
def get_valid_special_star_partitions (adj : List (StarId × List StarId))
    (alts : List (StarId × StarId)) (eligible : Finset StarId) :
    List (Finset StarId × Finset StarId) :=
  let sorted := get_topological_sort_of_prerequisites adj
  let remaining := (alts.map Prod.fst).filter (fun b => b ∉ adjKeys adj)
  let ordered := sorted ++ remaining
  (get_star_and_alternative_id_pairs alts eligible STAR_DDD1_ID ∅).flatMap
    (fun pr =>
      generateValidPartitionsRecursive adj alts eligible ordered {pr.1}
        (match pr.2 with
         | some e => ({e} : Finset StarId)
         | none => ∅))

/-- The set `set(base_star_alts_dict.values())` of 100-coin star IDs
(`src/optimize.py` line 71). -/
def hundredCoinStarIds (alts : List (StarId × StarId)) : Finset StarId :=
  (alts.map Prod.snd).toFinset

/-- Lines 73-78 of `src/optimize.py`: halve, in place, the recorded time
of every 100-coin star in the caller's star-time-tuple list. -/
def halveHundredCoinTimes (hundred : Finset StarId)
    (l : List (Time × StarId)) : List (Time × StarId) :=
  l.map (fun t => if t.2 ∈ hundred then (t.1 / 2, t.2) else t)

/-- Python's ascending tuple order on `(time, star_id)` pairs, used by
`star_time_tuples.sort()` (`src/optimize.py` line 81). -/
def starTimeTupleLe (a b : Time × StarId) : Bool :=
  decide (a.1 < b.1) || (decide (a.1 = b.1) && decide (a.2 ≤ b.2))

/-- The contents of the caller's `star_time_tuples` list after
`get_optimal_route` returns or raises: lines 73-81 of `src/optimize.py`
mutate the list in place (halving 100-coin star times, then sorting
ascending) and nothing later writes to it.  `starTimeTupleLe` is
antisymmetric up to equality of pairs, so every sorting algorithm agrees
with Python's stable `list.sort` here; `insertionSort` is used because it
is structurally recursive and therefore kernel-computable. -/
def routeStarTimeTuplesAfter (alts : List (StarId × StarId))
    (l : List (Time × StarId)) : List (Time × StarId) :=
  (halveHundredCoinTimes (hundredCoinStarIds alts) l).insertionSort
    (fun a b => starTimeTupleLe a b = true)

/-- `build_star_times_dict_from_star_time_tuples` (`src/util.py` lines
183-196) as a lookup: a dict comprehension keeps the value of the *last*
tuple with a given star ID.  The `.getD 0` default is never exercised by
`get_optimal_route`, which only looks up IDs drawn from the list itself. -/
def lookupStarTime (l : List (Time × StarId)) (id : StarId) : Time :=
  ((l.reverse.find? (fun t => t.2 == id)).map Prod.fst).getD 0

/-- The per-partition starting total time of `get_optimal_route`
(`src/optimize.py` lines 100-108). -/
def partitionStartingTime (tuples : List (Time × StarId))
    (hundred : Finset StarId) (S : Finset StarId) : Time :=
  S.sum (fun id => (if id ∈ hundred then (2 : ℚ) else 1) * lookupStarTime tuples id)

/-- The per-partition starting star count of `get_optimal_route`
(`src/optimize.py` line 108): each 100-coin star counts as two. -/
def partitionStartingCount (hundred : Finset StarId) (S : Finset StarId) : ℤ :=
  S.sum (fun id => if id ∈ hundred then (2 : ℤ) else 1)

/-- The per-partition upper-level star count of `get_optimal_route`
(`src/optimize.py` lines 110-111): each star in an upper-level location
counts as one, regardless of 100-coin doubling. -/
def partitionNumUpperLevel (locs : StarId → String) (S : Finset StarId) : ℤ :=
  S.sum (fun id => if locs id ∈ UPPER_LEVEL_LOCATIONS then (1 : ℤ) else 0)

/-- One partition trial of `get_optimal_route` (`src/optimize.py` lines
98-162): compute the partition's starting accounts, skip it if it already
exceeds the upper-level quota, then run the two augmentation phases
(non-upper locations first, then anywhere), and compare a successful
total time against the best so far (`math.inf` and the `None` starting
set are modelled by `Option`). -/
def routePartitionStep (tuples : List (Time × StarId))
    (hundred : Finset StarId) (locs : StarId → String) (req : StarId → ℤ)
    (maxUpper : ℤ) (best : Option (Time × Finset StarId))
    (p : Finset StarId × Finset StarId) : Option (Time × Finset StarId) :=
  let startTime := partitionStartingTime tuples hundred p.1
  let startCount := partitionStartingCount hundred p.1
  let numUpper := partitionNumUpperLevel locs p.1
  if numUpper > maxUpper then best
  else
    let target1 := NUM_STARS_IN_ROUTE - maxUpper + numUpper
    match add_non_special_stars_to_star_set startTime startCount target1
        (ALL_LOCATIONS \ UPPER_LEVEL_LOCATIONS) p.1 p.2 tuples hundred
        locs req with
    | .error _ => best
    | .ok (t1, S1) =>
      match add_non_special_stars_to_star_set t1 (max startCount target1)
          NUM_STARS_IN_ROUTE ALL_LOCATIONS S1 p.2 tuples hundred locs req with
      | .error _ => best
      | .ok (t2, S2) =>
        match best with
        | none => some (t2, S2)
        | some (bt, bs) => if t2 < bt then some (t2, S2) else some (bt, bs)

/-- `get_optimal_route` (`src/optimize.py` lines 21-171): halve 100-coin
star times and sort the list, enumerate every valid special-star
partition, run the two-phase augmentation per partition (catching
`InsufficientRemainingStars`), track the best total time, and raise
`NoValidRoutePossible` when no partition trial succeeds. -/
def get_optimal_route (star_time_tuples : List (Time × StarId))
    (max_num_upper_level_stars : ℤ) (adj : List (StarId × List StarId))
    (alts : List (StarId × StarId)) (star_locations : StarId → String)
    (num_stars_required : StarId → ℤ) :
    Except OptError (Finset StarId × Time) :=
  let hundred := hundredCoinStarIds alts
  let tuples := routeStarTimeTuplesAfter alts star_time_tuples
  let eligible := (tuples.map Prod.snd).toFinset
  let partitions := get_valid_special_star_partitions adj alts eligible
  let best := partitions.foldl
    (routePartitionStep tuples hundred star_locations num_stars_required
      max_num_upper_level_stars) none
  match best with
  | some (bt, bs) => .ok (bs, bt)
  | none => .error .noValidRoutePossible

/-! ### Specification-side notions

The following definitions express the spec's vocabulary (unit weights,
unit counts, the prerequisite descendant relation, augmentation traces)
and are used to state the claims; they are deliberately kept separate
from the code embedding above. -/

/-- The spec's unit weight of an item: 1 for an ordinary item, 2 for a
100-coin ("doubled") item. -/
def unitWeight (hundred : Finset StarId) (id : StarId) : ℤ :=
  if id ∈ hundred then 2 else 1

/-- The spec's unit count of a selection: the sum of unit weights of its
members. -/
def unitCount (hundred : Finset StarId) (S : Finset StarId) : ℤ :=
  S.sum (unitWeight hundred)

/-- The number of units a selection draws from the restricted upper-level
locations, counting a doubled item as 2 units (the counting used by claim
C2). -/
def upperLevelUnitCount (hundred : Finset StarId) (locs : StarId → String)
    (S : Finset StarId) : ℤ :=
  S.sum (fun id =>
    if locs id ∈ UPPER_LEVEL_LOCATIONS then unitWeight hundred id else 0)

/-- The direct prerequisite edge relation of an adjacency mapping:
`adjEdge adj u v` holds when `v` is listed among the dependants of `u`. -/
def adjEdge (adj : List (StarId × List StarId)) (u v : StarId) : Prop :=
  v ∈ ((adj.lookup u).getD [])

/-- `v` is a transitive descendant of `u` per the adjacency mapping. -/
def isDescendant (adj : List (StarId × List StarId)) (u v : StarId) : Prop :=
  Relation.TransGen (adjEdge adj) u v

/-- Every listed dependant of `x` lies in `D`. -/
def depsIn (adj : List (StarId × List StarId)) (D : Finset StarId)
    (x : StarId) : Prop :=
  ∀ d ∈ (adj.lookup x).getD [], d ∈ D

/-- `D` contains the 100-coin alternative of each of its members (when
the alternative exists). -/
def altClosed (alts : List (StarId × StarId)) (D : Finset StarId) : Prop :=
  ∀ x ∈ D, ∀ v, alts.lookup x = some v → v ∈ D

/-- An augmentation trace: the stars added by one augmenter call, each
paired with the running unit count at the moment it was added.  The
running count starts at `c` and each addition contributes its unit
weight. -/
def traceConsistent (hundred : Finset StarId) : ℤ → List (StarId × ℤ) → Prop
  | _, [] => True
  | c, (id, c0) :: rest =>
    c0 = c ∧ traceConsistent hundred (c + unitWeight hundred id) rest

/-- A partition trial of `get_optimal_route` completes: the partition
passes the upper-level quota pre-check and both augmentation phases
return without raising.  This mirrors, phase for phase, the body of
`routePartitionStep`. -/
def partitionTrialSucceeds (tuples : List (Time × StarId))
    (hundred : Finset StarId) (locs : StarId → String) (req : StarId → ℤ)
    (maxUpper : ℤ) (p : Finset StarId × Finset StarId) : Prop :=
  ¬ partitionNumUpperLevel locs p.1 > maxUpper ∧
  ∃ t1 S1 t2 S2,
    add_non_special_stars_to_star_set (partitionStartingTime tuples hundred p.1)
      (partitionStartingCount hundred p.1)
      (NUM_STARS_IN_ROUTE - maxUpper + partitionNumUpperLevel locs p.1)
      (ALL_LOCATIONS \ UPPER_LEVEL_LOCATIONS) p.1 p.2 tuples hundred locs req
      = .ok (t1, S1) ∧
    add_non_special_stars_to_star_set t1
      (max (partitionStartingCount hundred p.1)
        (NUM_STARS_IN_ROUTE - maxUpper + partitionNumUpperLevel locs p.1))
      NUM_STARS_IN_ROUTE ALL_LOCATIONS S1 p.2 tuples hundred locs req
      = .ok (t2, S2)

/-- The ids stored in a heap. -/
def heapIds (heap : List HeapEntry) : List StarId :=
  heap.map (fun e => e.2.2)

/-- The ids of a star-time-tuple list. -/
def tupleIds (l : List (Time × StarId)) : List StarId :=
  l.map Prod.snd

/-- Invariant on the heap of `add_non_special_stars_to_star_set`: every
staged entry is keyed by its star's requirement and lies in an allowed
location. -/
def HeapInv (locs : StarId → String) (req : StarId → ℤ)
    (allowed : Finset String) (heap : List HeapEntry) : Prop :=
  ∀ e ∈ heap, e.1 = req e.2.2 ∧ locs e.2.2 ∈ allowed

/-- The number of edges into `v` from adjacency entries whose key has not
yet been output — the quantity the mutable `in_degree_dict` of Kahn's
algorithm holds after the keys in `out` have been popped and their
dependants decremented. -/
def remInDegree (adj : List (StarId × List StarId)) (out : List StarId)
    (v : StarId) : ℤ :=
  (((adj.filter (fun pr => pr.1 ∉ out)).flatMap Prod.snd).count v : ℤ)

/-- A concrete 69-star input for exercising the upper-level quota (claim
C2): `DDD1` and the 100-coin star `B_100` are cheap, 67 filler stars are
expensive, and all times are pairwise distinct. -/
def quotaTuples : List (Time × StarId) :=
  (1, "DDD1") :: (4, "B_100") ::
    (List.range 67).map (fun i => ((i : ℚ) + 10, "L" ++ toString i))

/-- Locations for the quota scenario: only `B_100` sits on the upper
levels. -/
def quotaLocs : StarId → String :=
  fun id => if id = "B_100" then "upstairs" else "lobby"

/-! ### Helper lemmas -/

theorem starTimeTupleLe_iff (a b : Time × StarId) :
    starTimeTupleLe a b = true ↔ a.1 < b.1 ∨ (a.1 = b.1 ∧ a.2 ≤ b.2) := by
  simp [starTimeTupleLe]

theorem starTimeTupleLe_total (a b : Time × StarId) :
    starTimeTupleLe a b = true ∨ starTimeTupleLe b a = true := by
  rw [starTimeTupleLe_iff, starTimeTupleLe_iff]
  rcases lt_trichotomy a.1 b.1 with h | h | h
  · exact Or.inl (Or.inl h)
  · rcases le_total a.2 b.2 with h2 | h2
    · exact Or.inl (Or.inr ⟨h, h2⟩)
    · exact Or.inr (Or.inr ⟨h.symm, h2⟩)
  · exact Or.inr (Or.inl h)

theorem starTimeTupleLe_trans (a b c : Time × StarId)
    (hab : starTimeTupleLe a b = true) (hbc : starTimeTupleLe b c = true) :
    starTimeTupleLe a c = true := by
  rw [starTimeTupleLe_iff] at hab hbc ⊢
  rcases hab with h1 | ⟨h1, h1s⟩ <;> rcases hbc with h2 | ⟨h2, h2s⟩
  · exact Or.inl (h1.trans h2)
  · exact Or.inl (h2 ▸ h1)
  · exact Or.inl (h1 ▸ h2)
  · exact Or.inr ⟨h1.trans h2, h1s.trans h2s⟩

theorem halve_map_snd (h : Finset StarId) (l : List (Time × StarId)) :
    (halveHundredCoinTimes h l).map Prod.snd = l.map Prod.snd := by
  induction l with
  | nil => rfl
  | cons t rest ih =>
    simp only [halveHundredCoinTimes, List.map_cons] at ih ⊢
    by_cases ht : t.2 ∈ h <;> simp [ht, ih]

/-! ### Claim C6 -/

/-- Claim C6, corrected.  `get_optimal_route` is *not* free of side
effects on its caller's `star_time_tuples` list: lines 73-81 of
`src/optimize.py` rewrite it in place.  What does hold: after the call
the list is exactly a permutation of the original pairs with every
100-coin star's time halved, arranged in ascending `(time, id)` order; in
particular the multiset of star IDs is preserved, but the pair values and
their order generally are not. -/
theorem C6_star_time_tuples_after_call (alts : List (StarId × StarId))
    (l : List (Time × StarId)) :
    (routeStarTimeTuplesAfter alts l).Perm
      (halveHundredCoinTimes (hundredCoinStarIds alts) l) ∧
    List.Sorted (fun a b => starTimeTupleLe a b = true)
      (routeStarTimeTuplesAfter alts l) ∧
    ((routeStarTimeTuplesAfter alts l).map Prod.snd).Perm (l.map Prod.snd) := by
  haveI htot : IsTotal (Time × StarId) (fun a b => starTimeTupleLe a b = true) :=
    ⟨starTimeTupleLe_total⟩
  haveI htr : IsTrans (Time × StarId) (fun a b => starTimeTupleLe a b = true) :=
    ⟨starTimeTupleLe_trans⟩
  refine ⟨List.perm_insertionSort _ _, List.sorted_insertionSort _ _, ?_⟩
  have hperm := List.perm_insertionSort
    (fun a b => starTimeTupleLe a b = true)
    (halveHundredCoinTimes (hundredCoinStarIds alts) l)
  have h2 := hperm.map Prod.snd
  rw [halve_map_snd] at h2
  exact h2

section
attribute [local semireducible] Rat.add Rat.mul Rat.inv Rat.sub

/-- Counterexample to claim C6 as stated: after a `get_optimal_route`
call with one 100-coin star of recorded time 3, the caller's list holds
`(3/2, "D_100")`, not the original `(3, "D_100")` — the call mutates the
list (halving and sorting in place), so it does not hold the same pairs
in the same order as before. -/
theorem C6_star_time_tuples_changed_cex :
    routeStarTimeTuplesAfter [("D", "D_100")] [(3, "D_100")]
      ≠ [(3, "D_100")] := by decide

end

/-! ### Augmenter lemmas -/

theorem mem_heapPush {x e : HeapEntry} {h : List HeapEntry}
    (hm : e ∈ heapPush x h) : e = x ∨ e ∈ h := by
  induction h with
  | nil => simpa [heapPush] using hm
  | cons y rest ih =>
    simp only [heapPush] at hm
    split at hm
    · rcases List.mem_cons.mp hm with h1 | h1
      · exact Or.inl h1
      · exact Or.inr h1
    · rcases List.mem_cons.mp hm with h1 | h1
      · exact Or.inr (by simp [h1])
      · rcases ih h1 with h2 | h2
        · exact Or.inl h2
        · exact Or.inr (List.mem_cons_of_mem _ h2)

theorem coe_cons_add (a : StarId) (l1 l2 : List StarId) :
    ((a :: l1 : List StarId) : Multiset StarId) + (l2 : Multiset StarId)
      = (l1 : Multiset StarId) + ((a :: l2 : List StarId) : Multiset StarId) := by
  rw [← Multiset.cons_coe, ← Multiset.cons_coe, Multiset.cons_add, Multiset.add_cons]

theorem heapIds_heapPush (x : HeapEntry) (h : List HeapEntry) :
    (heapIds (heapPush x h) : Multiset StarId)
      = x.2.2 ::ₘ (heapIds h : Multiset StarId) := by
  induction h with
  | nil => rfl
  | cons y rest ih =>
    simp only [heapPush]
    split
    · rfl
    · have h1 : heapIds (y :: heapPush x rest) = y.2.2 :: heapIds (heapPush x rest) := rfl
      have h2 : heapIds (y :: rest) = y.2.2 :: heapIds rest := rfl
      rw [h1, h2, ← Multiset.cons_coe, ← Multiset.cons_coe, ih]
      exact Multiset.cons_swap _ _ _

theorem scanForStar_spec {locs : StarId → String} {req : StarId → ℤ}
    {allowed : Finset String} {included excluded : Finset StarId} {count : ℤ} :
    ∀ {rest : List (Time × StarId)} {heap : List HeapEntry}
      {t : Time × StarId} {rest' : List (Time × StarId)} {heap' : List HeapEntry},
    scanForStar locs req allowed included excluded count heap rest
      = .ok (t, rest', heap') →
    (t.2 ∉ included ∧ t.2 ∉ excluded ∧ locs t.2 ∈ allowed ∧ req t.2 ≤ count) ∧
    (∀ e ∈ heap', e ∈ heap ∨
      (e.1 = req e.2.2 ∧ locs e.2.2 ∈ allowed ∧
        e.2.2 ∉ included ∧ e.2.2 ∉ excluded)) ∧
    ((heapIds heap' : Multiset StarId) + (t.2 ::ₘ (tupleIds rest' : Multiset StarId))
      ≤ (heapIds heap : Multiset StarId) + (tupleIds rest : Multiset StarId)) := by
  intro rest
  induction rest with
  | nil => intro heap t rest' heap' h; simp [scanForStar] at h
  | cons u us ih =>
    intro heap t rest' heap' h
    simp only [scanForStar] at h
    split at h
    · -- u skipped: already included/excluded or bad location
      obtain ⟨h1, h2, h3⟩ := ih h
      refine ⟨h1, h2, le_trans h3 (add_le_add_left ?_ _)⟩
      simp only [tupleIds, List.map_cons, Multiset.cons_coe]
      exact Multiset.le_cons_self _ _
    · split at h
      · -- requirement met: u is returned
        rename_i hskip hreq
        rw [Except.ok.injEq] at h
        injection h with h1 h23
        injection h23 with h2 h3
        subst h1 h2 h3
        push_neg at hskip
        refine ⟨⟨hskip.1, hskip.2.1, hskip.2.2, hreq⟩,
          fun e he => Or.inl he, le_of_eq ?_⟩
        congr 1
      · -- requirement unmet: u pushed onto the heap
        rename_i hskip hreq
        obtain ⟨h1, h2, h3⟩ := ih h
        push_neg at hskip
        refine ⟨h1, ?_, ?_⟩
        · intro e he
          rcases h2 e he with he2 | he2
          · rcases mem_heapPush he2 with he3 | he3
            · subst he3; exact Or.inr ⟨rfl, hskip.2.2, hskip.1, hskip.2.1⟩
            · exact Or.inl he3
          · exact Or.inr he2
        · refine le_trans h3 (le_of_eq ?_)
          rw [heapIds_heapPush]
          rw [show tupleIds (u :: us) = u.2 :: tupleIds us from rfl,
            ← Multiset.cons_coe, Multiset.cons_add, Multiset.add_cons]

theorem pickStar_spec {locs : StarId → String} {req : StarId → ℤ}
    {allowed : Finset String} {included excluded : Finset StarId} {count : ℤ}
    {heap : List HeapEntry} {rest : List (Time × StarId)}
    {t : Time × StarId} {rest' : List (Time × StarId)} {heap' : List HeapEntry}
    (hinv : HeapInv locs req allowed heap)
    (h : pickStar locs req allowed included excluded count heap rest
      = .ok (t, rest', heap')) :
    (locs t.2 ∈ allowed ∧ req t.2 ≤ count) ∧
    HeapInv locs req allowed heap' ∧
    ((heapIds heap' : Multiset StarId) + (t.2 ::ₘ (tupleIds rest' : Multiset StarId))
      ≤ (heapIds heap : Multiset StarId) + (tupleIds rest : Multiset StarId)) := by
  unfold pickStar at h
  split at h
  · rename_i e heapRest
    split at h
    · rename_i hle
      rw [Except.ok.injEq] at h
      injection h with h1 h23
      injection h23 with h2 h3
      subst h1 h2 h3
      obtain ⟨hkey, hloc⟩ := hinv e (List.mem_cons_self _ _)
      refine ⟨⟨hloc, hkey ▸ hle⟩,
        fun f hf => hinv f (List.mem_cons_of_mem _ hf), le_of_eq ?_⟩
      have hc : heapIds (e :: heapRest) = e.2.2 :: heapIds heapRest := rfl
      rw [hc, Multiset.cons_coe, coe_cons_add]
    · obtain ⟨h1, h2, h3⟩ := scanForStar_spec h
      refine ⟨⟨h1.2.2.1, h1.2.2.2⟩, ?_, h3⟩
      intro f hf
      rcases h2 f hf with hf2 | hf2
      · exact hinv f hf2
      · exact ⟨hf2.1, hf2.2.1⟩
  · obtain ⟨h1, h2, h3⟩ := scanForStar_spec h
    refine ⟨⟨h1.2.2.1, h1.2.2.2⟩, ?_, h3⟩
    intro f hf
    rcases h2 f hf with hf2 | hf2
    · simp at hf2
    · exact ⟨hf2.1, hf2.2.1⟩

theorem addStarsLoop_trace (locs : StarId → String) (req : StarId → ℤ)
    (hundred : Finset StarId) (allowed : Finset String)
    (excluded : Finset StarId) (maxCount : ℤ) :
    ∀ (fuel : Nat) (totalTime : Time) (count : ℤ) (included : Finset StarId)
      (heap : List HeapEntry) (rest : List (Time × StarId))
      (t : Time) (S : Finset StarId),
    HeapInv locs req allowed heap →
    addStarsLoop locs req hundred allowed excluded maxCount fuel totalTime
      count included heap rest = .ok (t, S) →
    ∃ trace : List (StarId × ℤ),
      S = included ∪ (trace.map Prod.fst).toFinset ∧
      traceConsistent hundred count trace ∧
      (∀ e ∈ trace, locs e.1 ∈ allowed ∧ req e.1 ≤ e.2 ∧ e.2 < maxCount) ∧
      maxCount ≤ count + (trace.map (fun e => unitWeight hundred e.1)).sum := by
  intro fuel
  induction fuel with
  | zero =>
    intro totalTime count included heap rest t S hinv hrun
    simp only [addStarsLoop] at hrun
    split at hrun
    · simp at hrun
    · rename_i hge
      rw [Except.ok.injEq] at hrun
      injection hrun with h1 h2
      subst h1 h2
      exact ⟨[], by simp, trivial, by simp, by simpa using not_lt.mp hge⟩
  | succ n ih =>
    intro totalTime count included heap rest t S hinv hrun
    simp only [addStarsLoop] at hrun
    split at hrun
    · rename_i hlt
      split at hrun
      · simp at hrun
      · rename_i picked time id rest' heap' heq
        obtain ⟨⟨hloc, hreq⟩, hinv', hmult⟩ := pickStar_spec hinv heq
        obtain ⟨trace, hS, hcons, hprops, hfinal⟩ :=
          ih _ _ _ _ _ _ _ hinv' hrun
        refine ⟨(id, count) :: trace, ?_, ?_, ?_, ?_⟩
        · rw [hS]
          ext x
          simp only [Finset.mem_union, Finset.mem_insert, List.map_cons,
            List.toFinset_cons, List.mem_toFinset]
          tauto
        · exact ⟨rfl, hcons⟩
        · intro e he
          rcases List.mem_cons.mp he with he1 | he1
          · subst he1; exact ⟨hloc, hreq, hlt⟩
          · exact hprops e he1
        · simp only [List.map_cons, List.sum_cons]
          have : unitWeight hundred id = if id ∈ hundred then 2 else 1 := rfl
          rw [this]
          linarith [hfinal]
    · rename_i hge
      rw [Except.ok.injEq] at hrun
      injection hrun with h1 h2
      subst h1 h2
      exact ⟨[], by simp, trivial, by simp, by simpa using not_lt.mp hge⟩

theorem pickStar_nodup {locs : StarId → String} {req : StarId → ℤ}
    {allowed : Finset String} {included excluded : Finset StarId} {count : ℤ}
    {heap : List HeapEntry} {rest : List (Time × StarId)}
    {t : Time × StarId} {rest' : List (Time × StarId)} {heap' : List HeapEntry}
    (hN : (heapIds heap ++ tupleIds rest).Nodup)
    (hI : ∀ i ∈ heapIds heap, i ∉ included)
    (h : pickStar locs req allowed included excluded count heap rest
      = .ok (t, rest', heap')) :
    t.2 ∉ included ∧
    (heapIds heap' ++ tupleIds rest').Nodup ∧
    t.2 ∉ heapIds heap' ∧
    (∀ i ∈ heapIds heap', i ∉ included) := by
  have scanCase : ∀ {hp : List HeapEntry},
      (heapIds hp ++ tupleIds rest).Nodup →
      (∀ i ∈ heapIds hp, i ∉ included) →
      scanForStar locs req allowed included excluded count hp rest
        = .ok (t, rest', heap') →
      t.2 ∉ included ∧ (heapIds heap' ++ tupleIds rest').Nodup ∧
      t.2 ∉ heapIds heap' ∧ (∀ i ∈ heapIds heap', i ∉ included) := by
    intro hp hpN hpI hscan
    obtain ⟨h1, h2, h3⟩ := scanForStar_spec hscan
    have hle : ((heapIds heap' ++ (t.2 :: tupleIds rest') : List StarId) : Multiset StarId)
        ≤ ((heapIds hp ++ tupleIds rest : List StarId) : Multiset StarId) := by
      rw [← Multiset.coe_add, ← Multiset.coe_add, ← Multiset.cons_coe]
      exact h3
    have hN2 : (heapIds heap' ++ (t.2 :: tupleIds rest')).Nodup := by
      rw [← Multiset.coe_nodup]
      exact Multiset.nodup_of_le hle (by rw [Multiset.coe_nodup]; exact hpN)
    obtain ⟨hn1, hn2, hdisj⟩ := List.nodup_append.mp hN2
    refine ⟨h1.1, ?_, ?_, ?_⟩
    · exact List.nodup_append.mpr ⟨hn1, (List.nodup_cons.mp hn2).2,
        fun a ha hb => hdisj ha (List.mem_cons_of_mem _ hb)⟩
    · exact fun ha => hdisj ha (List.mem_cons_self _ _)
    · intro i hi
      obtain ⟨e, he, rfl⟩ := List.mem_map.mp hi
      rcases h2 e he with hold | hnew
      · exact hpI _ (List.mem_map.mpr ⟨e, hold, rfl⟩)
      · exact hnew.2.2.1
  unfold pickStar at h
  split at h
  · rename_i e heapRest
    split at h
    · rw [Except.ok.injEq] at h
      injection h with h1 h23
      injection h23 with h2 h3
      subst h1 h2 h3
      have hcons : heapIds (e :: heapRest) ++ tupleIds rest
          = e.2.2 :: (heapIds heapRest ++ tupleIds rest) := rfl
      rw [hcons] at hN
      obtain ⟨hnm, hnd⟩ := List.nodup_cons.mp hN
      refine ⟨hI _ (List.mem_map.mpr ⟨e, List.mem_cons_self _ _, rfl⟩),
        hnd, ?_, ?_⟩
      · intro hmem
        exact hnm (List.mem_append.mpr (Or.inl hmem))
      · intro i hi
        exact hI i (List.mem_map.mpr
          ⟨(List.mem_map.mp hi).choose,
            List.mem_cons_of_mem _ (List.mem_map.mp hi).choose_spec.1,
            (List.mem_map.mp hi).choose_spec.2⟩)
    · exact scanCase hN hI h
  · exact scanCase (by simpa [heapIds] using hN) (fun i hi => by simp [heapIds] at hi) h

theorem addStarsLoop_unitCount (locs : StarId → String) (req : StarId → ℤ)
    (hundred : Finset StarId) (allowed : Finset String)
    (excluded : Finset StarId) (maxCount : ℤ) :
    ∀ (fuel : Nat) (totalTime : Time) (count : ℤ) (included : Finset StarId)
      (heap : List HeapEntry) (rest : List (Time × StarId))
      (t : Time) (S : Finset StarId),
    (heapIds heap ++ tupleIds rest).Nodup →
    (∀ i ∈ heapIds heap, i ∉ included) →
    count = unitCount hundred included →
    count ≤ maxCount + 1 →
    addStarsLoop locs req hundred allowed excluded maxCount fuel totalTime
      count included heap rest = .ok (t, S) →
    maxCount ≤ unitCount hundred S ∧ unitCount hundred S ≤ maxCount + 1 := by
  intro fuel
  induction fuel with
  | zero =>
    intro totalTime count included heap rest t S hN hI hc hub hrun
    simp only [addStarsLoop] at hrun
    split at hrun
    · simp at hrun
    · rename_i hge
      rw [Except.ok.injEq] at hrun
      injection hrun with h1 h2
      subst h1 h2
      omega
  | succ n ih =>
    intro totalTime count included heap rest t S hN hI hc hub hrun
    simp only [addStarsLoop] at hrun
    split at hrun
    · rename_i hlt
      split at hrun
      · simp at hrun
      · rename_i picked time id rest' heap' heq
        obtain ⟨hid, hN', hfresh, hI'⟩ := pickStar_nodup hN hI heq
        have hw : (if id ∈ hundred then (2 : ℤ) else 1) = unitWeight hundred id := rfl
        refine ih _ _ _ _ _ _ _ hN' ?_ ?_ ?_ hrun
        · intro i hi
          rw [Finset.mem_insert]
          push_neg
          exact ⟨fun hieq => hfresh (hieq ▸ hi), hI' i hi⟩
        · have hid2 : id ∉ included := hid
          rw [hc, hw, unitCount, unitCount, Finset.sum_insert hid2]
          ring
        · have : (if id ∈ hundred then (2 : ℤ) else 1) ≤ 2 := by split <;> omega
          omega
    · rename_i hge
      rw [Except.ok.injEq] at hrun
      injection hrun with h1 h2
      subst h1 h2
      omega

/-- Claim C1, corrected.  The augmenter stops as soon as the running
unit count reaches the target, but a doubled (100-coin) item added one
unit below the target overshoots by one, so the returned set's unit
count is the requested target *or* the target plus one — not always
exactly the target.  Hypotheses: the star-time-tuple list carries
pairwise-distinct ids (as the dictionary-built list of
`get_optimal_route` does), the starting count is the starting set's unit
count, and the starting count does not already exceed the target. -/
theorem C1_unit_count_amended
    (startTime : Time) (maxCount : ℤ) (allowed : Finset String)
    (included excluded : Finset StarId) (tuples : List (Time × StarId))
    (hundred : Finset StarId) (locs : StarId → String) (req : StarId → ℤ)
    (t : Time) (S : Finset StarId)
    (hNodup : (tuples.map Prod.snd).Nodup)
    (hstart : unitCount hundred included ≤ maxCount)
    (h : add_non_special_stars_to_star_set startTime (unitCount hundred included)
      maxCount allowed included excluded tuples hundred locs req = .ok (t, S)) :
    unitCount hundred S = maxCount ∨ unitCount hundred S = maxCount + 1 := by
  have := addStarsLoop_unitCount locs req hundred allowed excluded maxCount
    (maxCount - unitCount hundred included).toNat startTime
    (unitCount hundred included) included [] tuples t S
    (by simpa [heapIds, tupleIds] using hNodup)
    (fun i hi => by simp [heapIds] at hi) rfl (by omega) h
  omega

section
attribute [local semireducible] Rat.add Rat.mul Rat.inv Rat.sub

/-- Counterexample to claim C1 as stated: an augmenter call with target
1 and a single eligible 100-coin star returns without raising, yet the
returned set's unit count is 2, not the requested target 1 (the doubled
star overshoots). -/
theorem C1_unit_count_equals_target_cex :
    add_non_special_stars_to_star_set 0 0 1 {"lobby"} ∅ ∅ [(2, "A_100")]
        {"A_100"} (fun _ => "lobby") (fun _ => 0) = .ok (4, {"A_100"}) ∧
    unitCount {"A_100"} {"A_100"} = 2 := by decide

/-- Witness for the amended claim C1: the counterexample run satisfies
the amended bound with the overshoot branch (unit count = target + 1). -/
theorem C1_unit_count_amended_witness :
    unitCount {"A_100"} {"A_100"} = 1 ∨ unitCount {"A_100"} {"A_100"} = 1 + 1 :=
  C1_unit_count_amended 0 1 {"lobby"} ∅ ∅ [(2, "A_100")] {"A_100"}
    (fun _ => "lobby") (fun _ => 0) 4 {"A_100"} (by decide) (by decide) (by decide)

end

/-- Claim C9, confirmed.  Every successful
`add_non_special_stars_to_star_set` call admits an addition trace: the
returned set is the starting included set plus the traced ids, the
running unit count recorded with each addition evolves from the starting
count by the added items' unit weights, and every added item's location
is in the allowed set with its required threshold at most the running
unit count at the moment it was added. -/
theorem C9_augmenter_added_stars_valid
    (startTime : Time) (startCount maxCount : ℤ) (allowed : Finset String)
    (included excluded : Finset StarId) (tuples : List (Time × StarId))
    (hundred : Finset StarId) (locs : StarId → String) (req : StarId → ℤ)
    (t : Time) (S : Finset StarId)
    (h : add_non_special_stars_to_star_set startTime startCount maxCount
      allowed included excluded tuples hundred locs req = .ok (t, S)) :
    ∃ trace : List (StarId × ℤ),
      S = included ∪ (trace.map Prod.fst).toFinset ∧
      traceConsistent hundred startCount trace ∧
      ∀ e ∈ trace, locs e.1 ∈ allowed ∧ req e.1 ≤ e.2 := by
  obtain ⟨trace, h1, h2, h3, _⟩ :=
    addStarsLoop_trace locs req hundred allowed excluded maxCount
      (maxCount - startCount).toNat startTime startCount included [] tuples t S
      (fun e he => absurd he (List.not_mem_nil e)) h
  exact ⟨trace, h1, h2, fun e he => ⟨(h3 e he).1, (h3 e he).2.1⟩⟩

section
attribute [local semireducible] Rat.add Rat.mul Rat.inv Rat.sub

/-- Witness for claim C9: a concrete successful augmenter call (two
stars added, one of them staged on the heap until the requirement was
met) to which the theorem applies. -/
theorem C9_augmenter_added_stars_valid_witness :
    ∃ trace : List (StarId × ℤ),
      ({"R", "S"} : Finset StarId) = ∅ ∪ (trace.map Prod.fst).toFinset ∧
      traceConsistent ∅ 0 trace ∧
      ∀ e ∈ trace, (fun _ => "lobby") e.1 ∈ ({"lobby"} : Finset String) ∧
        (fun id => if id = "R" then (1 : ℤ) else 0) e.1 ≤ e.2 :=
  C9_augmenter_added_stars_valid 0 0 2 {"lobby"} ∅ ∅
    [(1, "R"), (2, "S"), (3, "T")] ∅ (fun _ => "lobby")
    (fun id => if id = "R" then 1 else 0) 3 {"R", "S"} (by decide)

end

/-! ### Orchestrator error-path lemmas (claim C5) -/

theorem scanForStar_error {locs : StarId → String} {req : StarId → ℤ}
    {allowed : Finset String} {included excluded : Finset StarId} {count : ℤ} :
    ∀ {rest : List (Time × StarId)} {heap : List HeapEntry} {e : OptError},
    scanForStar locs req allowed included excluded count heap rest = .error e →
    e = .insufficientRemainingStars := by
  intro rest
  induction rest with
  | nil =>
    intro heap e h
    simp only [scanForStar, Except.error.injEq] at h
    exact h.symm
  | cons u us ih =>
    intro heap e h
    simp only [scanForStar] at h
    split at h
    · exact ih h
    · split at h
      · simp at h
      · exact ih h

theorem addStarsLoop_error (locs : StarId → String) (req : StarId → ℤ)
    (hundred : Finset StarId) (allowed : Finset String)
    (excluded : Finset StarId) (maxCount : ℤ) :
    ∀ (fuel : Nat) (totalTime : Time) (count : ℤ) (included : Finset StarId)
      (heap : List HeapEntry) (rest : List (Time × StarId)) (e : OptError),
    addStarsLoop locs req hundred allowed excluded maxCount fuel totalTime
      count included heap rest = .error e →
    e = .insufficientRemainingStars := by
  intro fuel
  induction fuel with
  | zero =>
    intro totalTime count included heap rest e h
    simp only [addStarsLoop] at h
    split at h
    · simp only [Except.error.injEq] at h
      exact h.symm
    · simp at h
  | succ n ih =>
    intro totalTime count included heap rest e h
    simp only [addStarsLoop] at h
    split at h
    · split at h
      · rename_i ferr heq
        simp only [Except.error.injEq] at h
        subst h
        unfold pickStar at heq
        split at heq
        · split at heq
          · simp at heq
          · exact scanForStar_error heq
        · exact scanForStar_error heq
      · exact ih _ _ _ _ _ _ h
    · simp at h

theorem routePartitionStep_none_iff (tuples : List (Time × StarId))
    (hundred : Finset StarId) (locs : StarId → String) (req : StarId → ℤ)
    (maxUpper : ℤ) (best : Option (Time × Finset StarId))
    (p : Finset StarId × Finset StarId) :
    routePartitionStep tuples hundred locs req maxUpper best p = none ↔
    (best = none ∧
      ¬ partitionTrialSucceeds tuples hundred locs req maxUpper p) := by
  simp only [routePartitionStep]
  by_cases hskip : partitionNumUpperLevel locs p.1 > maxUpper
  · rw [if_pos hskip]
    constructor
    · intro h
      exact ⟨h, fun hc => hc.1 hskip⟩
    · exact And.left
  · rw [if_neg hskip]
    rcases heq1 : add_non_special_stars_to_star_set
        (partitionStartingTime tuples hundred p.1)
        (partitionStartingCount hundred p.1)
        (NUM_STARS_IN_ROUTE - maxUpper + partitionNumUpperLevel locs p.1)
        (ALL_LOCATIONS \ UPPER_LEVEL_LOCATIONS) p.1 p.2 tuples hundred locs req
      with e | ⟨t1, S1⟩
    · simp only [heq1]
      constructor
      · intro h
        refine ⟨h, fun hc => ?_⟩
        obtain ⟨_, t1, S1, t2, S2, h1, _⟩ := hc
        rw [h1] at heq1
        exact absurd heq1 (by simp)
      · exact And.left
    · simp only [heq1]
      rcases heq2 : add_non_special_stars_to_star_set t1
          (max (partitionStartingCount hundred p.1)
            (NUM_STARS_IN_ROUTE - maxUpper + partitionNumUpperLevel locs p.1))
          NUM_STARS_IN_ROUTE ALL_LOCATIONS S1 p.2 tuples hundred locs req
        with e | ⟨t2, S2⟩
      · simp only [heq2]
        constructor
        · intro h
          refine ⟨h, fun hc => ?_⟩
          obtain ⟨_, t1', S1', t2, S2, h1, h2⟩ := hc
          rw [heq1, Except.ok.injEq] at h1
          injection h1 with ha hb
          subst ha hb
          rw [h2] at heq2
          exact absurd heq2 (by simp)
        · exact And.left
      · simp only [heq2]
        constructor
        · intro h
          exfalso
          rcases best with _ | ⟨bt2, bs2⟩
          · simp at h
          · rw [show (match some (bt2, bs2) with
              | none => some (t2, S2)
              | some (bt, bs) =>
                if t2 < bt then some (t2, S2) else some (bt, bs))
                = if t2 < bt2 then some (t2, S2) else some (bt2, bs2) from rfl] at h
            split at h <;> simp at h
        · rintro ⟨_, hns⟩
          exact absurd ⟨hskip, t1, S1, t2, S2, heq1, heq2⟩ hns

theorem routeFold_none_iff (tuples : List (Time × StarId))
    (hundred : Finset StarId) (locs : StarId → String) (req : StarId → ℤ)
    (maxUpper : ℤ) :
    ∀ (l : List (Finset StarId × Finset StarId))
      (best : Option (Time × Finset StarId)),
    l.foldl (routePartitionStep tuples hundred locs req maxUpper) best = none ↔
    (best = none ∧
      ∀ p ∈ l, ¬ partitionTrialSucceeds tuples hundred locs req maxUpper p) := by
  intro l
  induction l with
  | nil => intro best; simp
  | cons p rest ih =>
    intro best
    rw [List.foldl_cons, ih, routePartitionStep_none_iff]
    constructor
    · rintro ⟨⟨hb, hp⟩, hrest⟩
      refine ⟨hb, fun q hq => ?_⟩
      rcases List.mem_cons.mp hq with h | h
      · subst h; exact hp
      · exact hrest q h
    · rintro ⟨hb, hall⟩
      exact ⟨⟨hb, hall p (List.mem_cons_self _ _)⟩,
        fun q hq => hall q (List.mem_cons_of_mem _ hq)⟩

/-! ### Claim C5 -/

/-- Claim C5, confirmed.  `get_optimal_route` never surfaces
`InsufficientRemainingStars` (each partition trial's failure is caught
and the loop continues; see `addStarsLoop_error` for the fact that the
augmenter raises nothing else); it raises `NoValidRoutePossible` exactly
when every partition trial is skipped at the quota pre-check or fails an
augmentation phase; and it returns a (selection, total time) pair exactly
when some partition trial completes both phases. -/
theorem C5_error_semantics (l : List (Time × StarId)) (maxUpper : ℤ)
    (adj : List (StarId × List StarId)) (alts : List (StarId × StarId))
    (locs : StarId → String) (req : StarId → ℤ) :
    get_optimal_route l maxUpper adj alts locs req
      ≠ .error .insufficientRemainingStars ∧
    (get_optimal_route l maxUpper adj alts locs req
        = .error .noValidRoutePossible ↔
      ∀ p ∈ get_valid_special_star_partitions adj alts
          (((routeStarTimeTuplesAfter alts l).map Prod.snd).toFinset),
        ¬ partitionTrialSucceeds (routeStarTimeTuplesAfter alts l)
          (hundredCoinStarIds alts) locs req maxUpper p) ∧
    ((∃ S t, get_optimal_route l maxUpper adj alts locs req = .ok (S, t)) ↔
      ∃ p ∈ get_valid_special_star_partitions adj alts
          (((routeStarTimeTuplesAfter alts l).map Prod.snd).toFinset),
        partitionTrialSucceeds (routeStarTimeTuplesAfter alts l)
          (hundredCoinStarIds alts) locs req maxUpper p) := by
  have hiff := routeFold_none_iff (routeStarTimeTuplesAfter alts l)
    (hundredCoinStarIds alts) locs req maxUpper
    (get_valid_special_star_partitions adj alts
      (((routeStarTimeTuplesAfter alts l).map Prod.snd).toFinset)) none
  simp only [true_and] at hiff
  have hmain : get_optimal_route l maxUpper adj alts locs req
      = (match (get_valid_special_star_partitions adj alts
            (((routeStarTimeTuplesAfter alts l).map Prod.snd).toFinset)).foldl
            (routePartitionStep (routeStarTimeTuplesAfter alts l)
              (hundredCoinStarIds alts) locs req maxUpper) none with
         | some (bt, bs) => Except.ok (bs, bt)
         | none => Except.error OptError.noValidRoutePossible) := rfl
  rcases hfold : (get_valid_special_star_partitions adj alts
      (((routeStarTimeTuplesAfter alts l).map Prod.snd).toFinset)).foldl
      (routePartitionStep (routeStarTimeTuplesAfter alts l)
        (hundredCoinStarIds alts) locs req maxUpper) none with _ | ⟨bt, bs⟩
  · rw [hfold] at hmain
    refine ⟨by rw [hmain]; simp, ?_, ?_⟩
    · rw [hmain]
      simp only [true_iff]
      exact (hiff.mp hfold)
    · rw [hmain]
      constructor
      · rintro ⟨S, t, h⟩
        simp at h
      · rintro ⟨p, hp, hsucc⟩
        exact absurd (hiff.mp hfold p hp) (not_not.mpr hsucc)
  · rw [hfold] at hmain
    refine ⟨by rw [hmain]; simp, ?_, ?_⟩
    · rw [hmain]
      simp only [reduceCtorEq, false_iff]
      intro hall
      rw [hiff.mpr hall] at hfold
      exact absurd hfold (by simp)
    · rw [hmain]
      constructor
      · intro _
        by_contra hno
        push_neg at hno
        have : ∀ p ∈ get_valid_special_star_partitions adj alts
            (((routeStarTimeTuplesAfter alts l).map Prod.snd).toFinset),
            ¬ partitionTrialSucceeds (routeStarTimeTuplesAfter alts l)
              (hundredCoinStarIds alts) locs req maxUpper p := hno
        rw [hiff.mpr this] at hfold
        exact absurd hfold (by simp)
      · intro _
        exact ⟨bs, bt, rfl⟩

/-! ### Claim C7 -/

/-- Claim C7, corrected.  The `functools.cache` of `_find_descendants`
decorates an inner function recreated on every `find_descendants` call,
so the cache is scoped to a single call, not to the process: a second
call with the same item id and a different adjacency mapping starts from
an empty cache and returns the result computed from its own mapping
(first conjunct).  The second conjunct exhibits the contrast with the
architecture the claim describes: a second call that *did* share the
first call's cache would instead return the first call's (stale)
result. -/
theorem C7_cache_scoped_per_call (adj1 adj2 : List (StarId × List StarId))
    (alts : List (StarId × StarId)) (id : StarId) :
    find_descendants id adj2 alts
      = findDescendantsLoop adj2 alts
          (1 + 2 * (dependantsUniverse adj2).card) ∅ [id] ∧
    (cacheFindDescendants adj2 alts
        (cacheFindDescendants adj1 alts [] id).2 id).1
      = find_descendants id adj1 alts := by
  refine ⟨rfl, ?_⟩
  simp [cacheFindDescendants, find_descendants, List.lookup]

/-- Counterexample to claim C7 as stated: with a first call on the
mapping `a → b` and a second call on the mapping `a → c` (same item id
`a`, same process), the second call returns `{c}`, the result computed
from its own mapping — not the stale `{b}` cached by the first call. -/
theorem C7_no_stale_cache_cex :
    find_descendants "a" [("a", ["c"])] [] = ({"c"} : Finset StarId) ∧
    find_descendants "a" [("a", ["b"])] [] = ({"b"} : Finset StarId) ∧
    find_descendants "a" [("a", ["c"])] []
      ≠ find_descendants "a" [("a", ["b"])] [] := by decide

/-! ### Association-list and topological-order helper lemmas -/

theorem mem_of_lookup_eq_some {β : Type _} {alts : List (StarId × β)}
    {b : StarId} {a : β} (h : alts.lookup b = some a) : (b, a) ∈ alts := by
  induction alts with
  | nil => simp [List.lookup] at h
  | cons e rest ih =>
    rw [List.lookup_cons] at h
    split at h
    · rename_i hbe
      rw [Option.some.injEq] at h
      subst h
      have : b = e.1 := by simpa using hbe
      subst this
      exact List.mem_cons_self _ _
    · exact List.mem_cons_of_mem _ (ih h)

theorem lookup_isSome_of_mem {β : Type _} {alts : List (StarId × β)}
    {b : StarId} {a : β} (h : (b, a) ∈ alts) : ∃ c, alts.lookup b = some c := by
  induction alts with
  | nil => simp at h
  | cons e rest ih =>
    rw [List.lookup_cons]
    split
    · exact ⟨e.2, rfl⟩
    · rename_i hne
      rcases List.mem_cons.mp h with h1 | h1
      · exfalso
        rw [← h1] at hne
        simp at hne
      · exact ih h1

theorem lookup_eq_none_of_not_mem_keys {β : Type _} {l : List (StarId × β)}
    {b : StarId} (h : b ∉ l.map Prod.fst) : l.lookup b = none := by
  induction l with
  | nil => rfl
  | cons e rest ih =>
    rw [List.lookup_cons]
    split
    · rename_i hbe
      exfalso
      have : b = e.1 := by simpa using hbe
      exact h (List.mem_map.mpr ⟨e, List.mem_cons_self _ _, this.symm⟩)
    · refine ih (fun hm => h ?_)
      rw [List.map_cons]
      exact List.mem_cons_of_mem _ hm

theorem alts_key_unique {alts : List (StarId × StarId)}
    (hKN : (alts.map Prod.fst).Nodup) {b x y : StarId}
    (h1 : (b, x) ∈ alts) (h2 : (b, y) ∈ alts) : x = y := by
  have := List.inj_on_of_nodup_map hKN h1 h2 rfl
  exact congrArg Prod.snd this

theorem alts_val_unique {alts : List (StarId × StarId)}
    (hVN : (alts.map Prod.snd).Nodup) {x y a : StarId}
    (h1 : (x, a) ∈ alts) (h2 : (y, a) ∈ alts) : x = y := by
  have := List.inj_on_of_nodup_map hVN h1 h2 rfl
  exact congrArg Prod.fst this

theorem kahnFold_queue_mem (adj : List (StarId × List StarId)) :
    ∀ (deps : List StarId) (indeg : StarId → ℤ) (queue : List StarId),
    ∀ x ∈ (kahnFold adj deps indeg queue).2,
      x ∈ queue ∨ x ∈ adjKeys adj := by
  intro deps
  induction deps with
  | nil => intro indeg queue x hx; exact Or.inl hx
  | cons d ds ih =>
    intro indeg queue x hx
    rw [kahnFold, List.foldl_cons] at hx
    split at hx
    · rcases ih _ _ x hx with h | h
      · rcases List.mem_append.mp h with h1 | h1
        · exact Or.inl h1
        · rename_i hcond
          have : x = d := by simpa using h1
          exact Or.inr (this ▸ hcond.2)
      · exact Or.inr h
    · exact ih _ _ x hx

theorem kahnLoop_subset (adj : List (StarId × List StarId)) :
    ∀ (fuel : Nat) (indeg : StarId → ℤ) (queue out : List StarId),
    (∀ s ∈ queue, s ∈ adjKeys adj) →
    (∀ s ∈ out, s ∈ adjKeys adj) →
    ∀ s ∈ kahnLoop adj fuel indeg queue out, s ∈ adjKeys adj := by
  intro fuel
  induction fuel with
  | zero =>
    intro indeg queue out hq hout s hs
    rw [kahnLoop] at hs
    exact hout s hs
  | succ n ih =>
    intro indeg queue out hq hout s hs
    match queue with
    | [] => exact hout s hs
    | q :: qRest =>
      rw [kahnLoop] at hs
      refine ih _ _ _ ?_ ?_ s hs
      · intro x hx
        rcases kahnFold_queue_mem adj _ _ _ x hx with h | h
        · exact hq x (List.mem_cons_of_mem _ h)
        · exact h
      · intro x hx
        rcases List.mem_append.mp hx with h | h
        · exact hout x h
        · have : x = q := by simpa using h
          exact this ▸ hq q (List.mem_cons_self _ _)

theorem topological_sort_subset (adj : List (StarId × List StarId)) :
    ∀ s ∈ get_topological_sort_of_prerequisites adj, s ∈ adjKeys adj := by
  intro s hs
  unfold get_topological_sort_of_prerequisites at hs
  refine kahnLoop_subset adj _ _ _ _ ?_ (by simp) s hs
  intro x hx
  exact (List.mem_filter.mp (List.mem_reverse.mp hx)).1

/-! ### Kahn invariant lemmas (claim C8) -/

theorem lookup_eq_of_mem_nodup {β : Type _} {l : List (StarId × β)}
    (hN : (l.map Prod.fst).Nodup) {b : StarId} {a : β}
    (h : (b, a) ∈ l) : l.lookup b = some a := by
  obtain ⟨c, hc⟩ := lookup_isSome_of_mem h
  have hmem := mem_of_lookup_eq_some hc
  have hac : a = c := congrArg Prod.snd (List.inj_on_of_nodup_map hN h hmem rfl)
  rw [hc, hac]

theorem edge_from_lookup {adj : List (StarId × List StarId)} {u v : StarId}
    (h : adjEdge adj u v) : ∃ ds, adj.lookup u = some ds ∧ v ∈ ds := by
  have h2 : v ∈ ((adj.lookup u).getD []) := h
  rcases hl : adj.lookup u with _ | ds
  · rw [hl] at h2
    exact absurd h2 (by simp)
  · rw [hl] at h2
    exact ⟨ds, rfl, h2⟩

theorem edge_source_key {adj : List (StarId × List StarId)} {u v : StarId}
    (h : adjEdge adj u v) : u ∈ adjKeys adj := by
  obtain ⟨ds, hl, _⟩ := edge_from_lookup h
  exact List.mem_map.mpr ⟨(u, ds), mem_of_lookup_eq_some hl, rfl⟩

theorem rank_lt_of_transGen {α : Type _} {r : α → α → Prop} {f : α → ℤ}
    (hm : ∀ a b, r a b → f a < f b) {u v : α}
    (h : Relation.TransGen r u v) : f u < f v := by
  induction h with
  | single h => exact hm _ _ h
  | tail hT hE ih => exact lt_trans ih (hm _ _ hE)

/-- An acyclic adjacency mapping admits a rank function that strictly
increases along edges (rank by the number of descendants, negated). -/
theorem exists_rank_of_acyclic (adj : List (StarId × List StarId))
    (hacyc : ∀ u, ¬ isDescendant adj u u) :
    ∃ rank : StarId → ℤ, ∀ u v, adjEdge adj u v → rank u < rank v := by
  classical
  refine ⟨fun u => -(((dependantsUniverse adj).filter
    (fun v => isDescendant adj u v)).card : ℤ), ?_⟩
  intro u v hE
  have hsub : (dependantsUniverse adj).filter (fun w => isDescendant adj v w) ⊆
      (dependantsUniverse adj).filter (fun w => isDescendant adj u w) := by
    intro w hw
    rw [Finset.mem_filter] at hw ⊢
    exact ⟨hw.1, Relation.TransGen.head hE hw.2⟩
  have hvU : v ∈ dependantsUniverse adj := by
    obtain ⟨ds, hl, hv⟩ := edge_from_lookup hE
    exact List.mem_toFinset.mpr
      (List.mem_flatMap.mpr ⟨(u, ds), mem_of_lookup_eq_some hl, hv⟩)
  have hvin : v ∈ (dependantsUniverse adj).filter (fun w => isDescendant adj u w) :=
    Finset.mem_filter.mpr ⟨hvU, Relation.TransGen.single hE⟩
  have hvout : v ∉ (dependantsUniverse adj).filter (fun w => isDescendant adj v w) := by
    rw [Finset.mem_filter]
    exact fun hc => hacyc v hc.2
  have hlt : ((dependantsUniverse adj).filter
      (fun w => isDescendant adj v w)).card <
      ((dependantsUniverse adj).filter (fun w => isDescendant adj u w)).card :=
    Finset.card_lt_card (Finset.ssubset_iff_of_subset hsub |>.mpr ⟨v, hvin, hvout⟩)
  dsimp only
  omega

theorem count_le_count_flatMap {l : List (StarId × List StarId)}
    {q : StarId} {ds : List StarId} (h : (q, ds) ∈ l) (v : StarId) :
    ds.count v ≤ (l.flatMap Prod.snd).count v := by
  induction l with
  | nil => simp at h
  | cons e rest ih =>
    rw [List.flatMap_cons, List.count_append]
    rcases List.mem_cons.mp h with h | h
    · subst h
      exact Nat.le_add_right _ _
    · exact le_add_of_nonneg_of_le (Nat.zero_le _) (ih h)

theorem remInDegree_nil (adj : List (StarId × List StarId)) (v : StarId) :
    remInDegree adj [] v = initInDegree adj v := by
  unfold remInDegree initInDegree
  have h : adj.filter (fun pr => pr.1 ∉ ([] : List StarId)) = adj :=
    List.filter_eq_self.mpr (fun pr _ => by simp)
  rw [h]

theorem remInDegree_nonneg (adj : List (StarId × List StarId))
    (out : List StarId) (v : StarId) : 0 ≤ remInDegree adj out v :=
  Int.ofNat_nonneg _

theorem remInDegree_pos_of_edge {adj : List (StarId × List StarId)}
    {out : List StarId} {u v : StarId} (hE : adjEdge adj u v)
    (hu : u ∉ out) : 0 < remInDegree adj out v := by
  obtain ⟨ds, hl, hv⟩ := edge_from_lookup hE
  have hmem : (u, ds) ∈ adj.filter (fun pr => pr.1 ∉ out) :=
    List.mem_filter.mpr ⟨mem_of_lookup_eq_some hl, by simpa using hu⟩
  have hcnt := count_le_count_flatMap hmem v
  have hds : 0 < ds.count v := List.count_pos_iff_mem.mpr hv
  unfold remInDegree
  omega

theorem remInDegree_pos_elim {adj : List (StarId × List StarId)}
    (hKN : (adjKeys adj).Nodup)
    {out : List StarId} {v : StarId} (h : 0 < remInDegree adj out v) :
    ∃ u, u ∉ out ∧ adjEdge adj u v ∧ u ∈ adjKeys adj := by
  unfold remInDegree at h
  have hmem : v ∈ (adj.filter (fun pr => pr.1 ∉ out)).flatMap Prod.snd := by
    rw [← List.count_pos_iff_mem]
    omega
  obtain ⟨pr, hpr, hv⟩ := List.mem_flatMap.mp hmem
  rw [List.mem_filter] at hpr
  have hkey : pr.1 ∈ adjKeys adj := List.mem_map.mpr ⟨pr, hpr.1, rfl⟩
  have hl : adj.lookup pr.1 = some pr.2 :=
    lookup_eq_of_mem_nodup hKN (show (pr.1, pr.2) ∈ adj from hpr.1)
  refine ⟨pr.1, by simpa using hpr.2, ?_, hkey⟩
  have h2 : v ∈ ((adj.lookup pr.1).getD []) := by
    rw [hl]
    exact hv
  exact h2

theorem deps_count_le_remInDegree {adj : List (StarId × List StarId)}
    {out : List StarId} {q : StarId} (hq : q ∉ out) (v : StarId) :
    (((adj.lookup q).getD []).count v : ℤ) ≤ remInDegree adj out v := by
  rcases hl : adj.lookup q with _ | ds
  · simp [remInDegree_nonneg]
  · have hmem : (q, ds) ∈ adj.filter (fun pr => pr.1 ∉ out) :=
      List.mem_filter.mpr ⟨mem_of_lookup_eq_some hl, by simpa using hq⟩
    have := count_le_count_flatMap hmem v
    unfold remInDegree
    simp only [Option.getD_some]
    omega

theorem remCount_append_aux (out : List StarId) (q : StarId) (hq : q ∉ out)
    (v : StarId) :
    ∀ (adj : List (StarId × List StarId)), (adj.map Prod.fst).Nodup →
    ((adj.filter (fun pr => pr.1 ∉ out ++ [q])).flatMap Prod.snd).count v
      + (((adj.lookup q).getD []).count v)
    = ((adj.filter (fun pr => pr.1 ∉ out)).flatMap Prod.snd).count v := by
  intro adj
  induction adj with
  | nil => simp [List.lookup]
  | cons e rest ih =>
    intro hKN
    have hKN2 : (e.1 :: rest.map Prod.fst).Nodup := hKN
    rw [List.nodup_cons] at hKN2
    rcases e with ⟨k, ds⟩
    by_cases hkq : k = q
    · subst hkq
      have hlk : ((k, ds) :: rest).lookup k = some ds := by
        rw [List.lookup_cons]
        simp
      have hrest : rest.filter (fun pr => decide (pr.1 ∉ out ++ [k])) =
          rest.filter (fun pr => decide (pr.1 ∉ out)) := by
        apply List.filter_congr
        intro pr hpr
        have hprk : pr.1 ≠ k := fun hc =>
          hKN2.1 (hc ▸ List.mem_map.mpr ⟨pr, hpr, rfl⟩)
        simp [hprk]
      rw [hlk, List.filter_cons, List.filter_cons]
      rw [if_neg (by simp), if_pos (by simpa using hq)]
      rw [hrest, List.flatMap_cons, List.count_append]
      simp only [Option.getD_some]
      omega
    · have hlk : ((k, ds) :: rest).lookup q = rest.lookup q := by
        rw [List.lookup_cons]
        simp [show (q == k) = false from beq_eq_false_iff_ne.mpr (Ne.symm hkq)]
      rw [hlk, List.filter_cons, List.filter_cons]
      by_cases hko : k ∈ out
      · rw [if_neg (by simp [hko]), if_neg (by simp [hko])]
        exact ih hKN2.2
      · rw [if_pos (by simp [hko, hkq]), if_pos (by simpa using hko)]
        rw [List.flatMap_cons, List.flatMap_cons, List.count_append,
          List.count_append]
        have := ih hKN2.2
        omega

theorem remInDegree_append {adj : List (StarId × List StarId)}
    (hKN : (adjKeys adj).Nodup) {out : List StarId} {q : StarId}
    (hq : q ∉ out) (v : StarId) :
    remInDegree adj (out ++ [q]) v =
      remInDegree adj out v - (((adj.lookup q).getD []).count v : ℤ) := by
  have h := remCount_append_aux out q hq v adj hKN
  unfold remInDegree
  omega

/-- Characterization of one pass of the dependant-decrement loop: every
dependant's in-degree drops by its multiplicity, and the enqueued stars
are exactly the keys whose in-degree crossed zero during the pass. -/
theorem kahnFold_spec (adj : List (StarId × List StarId)) :
    ∀ (deps : List StarId) (indeg : StarId → ℤ) (queue : List StarId),
    (∀ v, (kahnFold adj deps indeg queue).1 v = indeg v - deps.count v) ∧
    ∃ pushed : List StarId,
      (kahnFold adj deps indeg queue).2 = queue ++ pushed ∧
      pushed.Nodup ∧
      (∀ x, x ∈ pushed ↔
        (x ∈ adjKeys adj ∧ 0 < indeg x ∧ indeg x ≤ (deps.count x : ℤ))) := by
  intro deps
  induction deps with
  | nil =>
    intro indeg queue
    refine ⟨fun v => by simp [kahnFold], [], by simp [kahnFold],
      List.nodup_nil, ?_⟩
    intro x
    simp only [List.not_mem_nil, List.count_nil, false_iff]
    intro hc
    omega
  | cons d ds ih =>
    intro indeg queue
    have hcount : ∀ x : StarId,
        (d :: ds).count x = ds.count x + if x = d then 1 else 0 := by
      intro x
      rw [List.count_cons]
      by_cases h : x = d
      · simp [h]
      · simp [h, Ne.symm h]
    have hred : kahnFold adj (d :: ds) indeg queue =
        if indeg d - 1 = 0 ∧ d ∈ adjKeys adj then
          kahnFold adj ds (fun s => if s = d then indeg d - 1 else indeg s)
            (queue ++ [d])
        else
          kahnFold adj ds (fun s => if s = d then indeg d - 1 else indeg s)
            queue := by
      simp only [kahnFold, List.foldl_cons]
      by_cases hc : indeg d - 1 = 0 ∧ d ∈ adjKeys adj
      · rw [if_pos hc, if_pos hc]
      · rw [if_neg hc, if_neg hc]
    by_cases hc : indeg d - 1 = 0 ∧ d ∈ adjKeys adj
    · rw [hred, if_pos hc]
      obtain ⟨h1, pushed, h2, h3, h4⟩ :=
        ih (fun s => if s = d then indeg d - 1 else indeg s) (queue ++ [d])
      have hdnp : d ∉ pushed := by
        intro hcon
        have := (h4 d).mp hcon
        rw [if_pos rfl] at this
        omega
      refine ⟨?_, d :: pushed, ?_, List.nodup_cons.mpr ⟨hdnp, h3⟩, ?_⟩
      · intro v
        rw [h1 v, hcount v]
        by_cases hv : v = d
        · rw [if_pos hv, if_pos hv, hv]
          push_cast
          omega
        · rw [if_neg hv, if_neg hv]
          push_cast
          omega
      · rw [h2, List.append_assoc, List.singleton_append]
      · intro x
        rw [List.mem_cons]
        by_cases hx : x = d
        · subst hx
          rw [hcount x, if_pos rfl]
          constructor
          · intro _
            refine ⟨hc.2, by omega, by push_cast; omega⟩
          · intro _
            exact Or.inl rfl
        · rw [hcount x, if_neg hx]
          constructor
          · intro hmem
            rcases hmem with hmem | hmem
            · exact absurd hmem hx
            · have := (h4 x).mp hmem
              rw [if_neg hx] at this
              refine ⟨this.1, this.2.1, by push_cast; omega⟩
          · intro hr
            refine Or.inr ((h4 x).mpr ?_)
            rw [if_neg hx]
            refine ⟨hr.1, hr.2.1, by push_cast at hr ⊢; omega⟩
    · rw [hred, if_neg hc]
      obtain ⟨h1, pushed, h2, h3, h4⟩ :=
        ih (fun s => if s = d then indeg d - 1 else indeg s) queue
      refine ⟨?_, pushed, h2, h3, ?_⟩
      · intro v
        rw [h1 v, hcount v]
        by_cases hv : v = d
        · rw [if_pos hv, if_pos hv, hv]
          push_cast
          omega
        · rw [if_neg hv, if_neg hv]
          push_cast
          omega
      · intro x
        by_cases hx : x = d
        · subst hx
          rw [h4 x, if_pos rfl, hcount x, if_pos rfl]
          constructor
          · intro ⟨hk, hpos, hle⟩
            refine ⟨hk, by omega, by push_cast at hle ⊢; omega⟩
          · intro ⟨hk, hpos, hle⟩
            have hne : ¬ indeg x - 1 = 0 := fun hz => hc ⟨hz, hk⟩
            refine ⟨hk, by omega, by push_cast at hle ⊢; omega⟩
        · rw [h4 x, if_neg hx, hcount x, if_neg hx]
          constructor
          · intro ⟨hk, hpos, hle⟩
            exact ⟨hk, hpos, by push_cast at hle ⊢; omega⟩
          · intro ⟨hk, hpos, hle⟩
            exact ⟨hk, hpos, by push_cast at hle ⊢; omega⟩

/-- When the queue is empty, every key has been output: otherwise the
not-yet-output key of minimal rank would still have positive remaining
in-degree, yet all its in-edges would come from output keys. -/
theorem kahnLoop_done (adj : List (StarId × List StarId))
    (hKN : (adjKeys adj).Nodup) (rank : StarId → ℤ)
    (hrank : ∀ u v, adjEdge adj u v → rank u < rank v)
    (indeg : StarId → ℤ) (out : List StarId)
    (h4 : ∀ v, indeg v = remInDegree adj out v)
    (h7 : ∀ k ∈ adjKeys adj, k ∉ out → 0 < indeg k) :
    ∀ k ∈ adjKeys adj, k ∈ out := by
  intro k hk
  by_contra hko
  have hR : ((adjKeys adj).toFinset.filter (fun x => x ∉ out)).Nonempty :=
    ⟨k, Finset.mem_filter.mpr ⟨List.mem_toFinset.mpr hk, hko⟩⟩
  obtain ⟨w, hwR, hwmin⟩ := Finset.exists_min_image _ rank hR
  rw [Finset.mem_filter] at hwR
  have hwK := List.mem_toFinset.mp hwR.1
  have hpos := h7 w hwK hwR.2
  rw [h4 w] at hpos
  obtain ⟨u, huo, huE, huK⟩ := remInDegree_pos_elim hKN hpos
  have huR : u ∈ (adjKeys adj).toFinset.filter (fun x => x ∉ out) :=
    Finset.mem_filter.mpr ⟨List.mem_toFinset.mpr huK, huo⟩
  have hle := hwmin u huR
  have hlt := hrank u w huE
  omega

/-- Master invariant lemma for the `while queue` loop of Kahn's
algorithm: starting from any state satisfying the loop invariants, the
loop returns a duplicate-free list of keys containing every key, in
which every edge between keys goes from an earlier to a later
position. -/
theorem kahnLoop_master (adj : List (StarId × List StarId))
    (hKN : (adjKeys adj).Nodup) (rank : StarId → ℤ)
    (hrank : ∀ u v, adjEdge adj u v → rank u < rank v) :
    ∀ (fuel : Nat) (indeg : StarId → ℤ) (queue out : List StarId),
    (out ++ queue).Nodup →
    (∀ x ∈ out, x ∈ adjKeys adj) →
    (∀ x ∈ queue, x ∈ adjKeys adj) →
    (∀ v, indeg v = remInDegree adj out v) →
    (∀ k ∈ queue, indeg k = 0) →
    (∀ k ∈ out, indeg k = 0) →
    (∀ k ∈ adjKeys adj, k ∉ out → k ∉ queue → 0 < indeg k) →
    (∀ v ∈ out, ∀ u, adjEdge adj u v →
      u ∈ out ∧ out.indexOf u < out.indexOf v) →
    (adjKeys adj).length ≤ fuel + out.length →
    (kahnLoop adj fuel indeg queue out).Nodup ∧
    (∀ x ∈ kahnLoop adj fuel indeg queue out, x ∈ adjKeys adj) ∧
    (∀ k ∈ adjKeys adj, k ∈ kahnLoop adj fuel indeg queue out) ∧
    (∀ v ∈ kahnLoop adj fuel indeg queue out, ∀ u, adjEdge adj u v →
      u ∈ kahnLoop adj fuel indeg queue out ∧
      (kahnLoop adj fuel indeg queue out).indexOf u <
        (kahnLoop adj fuel indeg queue out).indexOf v) := by
  intro fuel
  induction fuel with
  | zero =>
    intro indeg queue out h1 h2 h3 h4 h5 h6 h7 h8 hfuel
    cases queue with
    | nil =>
      rw [List.append_nil] at h1
      exact ⟨h1, h2, kahnLoop_done adj hKN rank hrank indeg out h4
        (fun k hk hko => h7 k hk hko (List.not_mem_nil k)), h8⟩
    | cons q qRest =>
      exfalso
      have hlen : (out ++ q :: qRest).length ≤ (adjKeys adj).length := by
        calc (out ++ q :: qRest).length = (out ++ q :: qRest).toFinset.card :=
            (List.toFinset_card_of_nodup h1).symm
          _ ≤ (adjKeys adj).toFinset.card := Finset.card_le_card (by
              intro x hx
              rw [List.mem_toFinset] at hx ⊢
              rcases List.mem_append.mp hx with hx | hx
              · exact h2 x hx
              · exact h3 x hx)
          _ ≤ (adjKeys adj).length := (adjKeys adj).toFinset_card_le
      rw [List.length_append, List.length_cons] at hlen
      omega
  | succ n ih =>
    intro indeg queue out h1 h2 h3 h4 h5 h6 h7 h8 hfuel
    cases queue with
    | nil =>
      rw [List.append_nil] at h1
      exact ⟨h1, h2, kahnLoop_done adj hKN rank hrank indeg out h4
        (fun k hk hko => h7 k hk hko (List.not_mem_nil k)), h8⟩
    | cons q qRest =>
      simp only [kahnLoop]
      obtain ⟨hf1, pushed, hf2, hf3, hf4⟩ :=
        kahnFold_spec adj ((adj.lookup q).getD []) indeg qRest
      set step := kahnFold adj ((adj.lookup q).getD []) indeg qRest with hstepdef
      have hqK : q ∈ adjKeys adj := h3 q (List.mem_cons_self _ _)
      have hqout : q ∉ out := by
        intro hc
        exact (List.disjoint_of_nodup_append h1) hc (List.mem_cons_self _ _)
      have hq0 : indeg q = 0 := h5 q (List.mem_cons_self _ _)
      have h4' : ∀ v, step.1 v = remInDegree adj (out ++ [q]) v := by
        intro v
        rw [hf1 v, h4 v, remInDegree_append hKN hqout v]
      have h2' : ∀ x ∈ out ++ [q], x ∈ adjKeys adj := by
        intro x hx
        rcases List.mem_append.mp hx with hx | hx
        · exact h2 x hx
        · have hxq : x = q := by simpa using hx
          exact hxq ▸ hqK
      have h3' : ∀ x ∈ qRest ++ pushed, x ∈ adjKeys adj := by
        intro x hx
        rcases List.mem_append.mp hx with hx | hx
        · exact h3 x (List.mem_cons_of_mem _ hx)
        · exact ((hf4 x).mp hx).1
      have h1' : ((out ++ [q]) ++ (qRest ++ pushed)).Nodup := by
        have heqL : (out ++ [q]) ++ (qRest ++ pushed)
            = (out ++ q :: qRest) ++ pushed := by
          rw [← List.append_assoc, List.append_assoc out [q] qRest,
            List.singleton_append]
        rw [heqL]
        refine List.Nodup.append h1 hf3 ?_
        intro x hx hxp
        have h0 : indeg x = 0 := by
          rcases List.mem_append.mp hx with hx | hx
          · exact h6 x hx
          · exact h5 x hx
        have := (hf4 x).mp hxp
        omega
      have h5' : ∀ k ∈ qRest ++ pushed, step.1 k = 0 := by
        intro k hk
        rw [hf1 k]
        rcases List.mem_append.mp hk with hk | hk
        · have h0 : indeg k = 0 := h5 k (List.mem_cons_of_mem _ hk)
          have hle := @deps_count_le_remInDegree adj out q hqout k
          rw [← h4 k] at hle
          have hzn : (0 : ℤ) ≤ (((adj.lookup q).getD []).count k : ℤ) :=
            Int.ofNat_nonneg _
          omega
        · have hmem := (hf4 k).mp hk
          have hge : (0 : ℤ) ≤ remInDegree adj (out ++ [q]) k :=
            remInDegree_nonneg _ _ _
          have heq2 : indeg k - (((adj.lookup q).getD []).count k : ℤ)
              = remInDegree adj (out ++ [q]) k := by
            rw [h4 k, remInDegree_append hKN hqout k]
          omega
      have h6' : ∀ k ∈ out ++ [q], step.1 k = 0 := by
        intro k hk
        rw [hf1 k]
        have h0 : indeg k = 0 := by
          rcases List.mem_append.mp hk with hk | hk
          · exact h6 k hk
          · have hkq : k = q := by simpa using hk
            exact hkq ▸ hq0
        have hle := @deps_count_le_remInDegree adj out q hqout k
        rw [← h4 k] at hle
        have hzn : (0 : ℤ) ≤ (((adj.lookup q).getD []).count k : ℤ) :=
          Int.ofNat_nonneg _
        omega
      have h7' : ∀ k ∈ adjKeys adj, k ∉ out ++ [q] → k ∉ qRest ++ pushed →
          0 < step.1 k := by
        intro k hkK hk1 hk2
        have hko : k ∉ out := fun hc => hk1 (List.mem_append_left _ hc)
        have hkq : k ≠ q := fun hc => hk1 (List.mem_append_right _ (by simp [hc]))
        have hkr : k ∉ qRest := fun hc => hk2 (List.mem_append_left _ hc)
        have hkp : k ∉ pushed := fun hc => hk2 (List.mem_append_right _ hc)
        have hpos : 0 < indeg k := by
          refine h7 k hkK hko ?_
          intro hc
          rcases List.mem_cons.mp hc with hc | hc
          · exact hkq hc
          · exact hkr hc
        have hnle : ¬ (indeg k ≤ (((adj.lookup q).getD []).count k : ℤ)) :=
          fun hle => hkp ((hf4 k).mpr ⟨hkK, hpos, hle⟩)
        rw [hf1 k]
        omega
      have h8' : ∀ v ∈ out ++ [q], ∀ u, adjEdge adj u v →
          u ∈ out ++ [q] ∧ (out ++ [q]).indexOf u < (out ++ [q]).indexOf v := by
        intro v hv u hE
        rcases List.mem_append.mp hv with hv | hv
        · obtain ⟨hu, hidx⟩ := h8 v hv u hE
          refine ⟨List.mem_append_left _ hu, ?_⟩
          rw [List.indexOf_append_of_mem hu, List.indexOf_append_of_mem hv]
          exact hidx
        · have hvq : v = q := by simpa using hv
          subst hvq
          have huo : u ∈ out := by
            by_contra huo
            have hpos := remInDegree_pos_of_edge hE huo
            rw [← h4 v] at hpos
            omega
          refine ⟨List.mem_append_left _ huo, ?_⟩
          rw [List.indexOf_append_of_mem huo,
            List.indexOf_append_of_not_mem hqout, List.indexOf_cons_self]
          have := List.indexOf_lt_length.mpr huo
          omega
      have hfuel' : (adjKeys adj).length ≤ n + (out ++ [q]).length := by
        rw [List.length_append, List.length_cons, List.length_nil]
        omega
      rw [hf2]
      exact ih step.1 (qRest ++ pushed) (out ++ [q]) h1' h2' h3' h4' h5' h6'
        h7' h8' hfuel'

/-! ### Descendant-finder lemmas (claim C4) -/

theorem fdFold_spec (adj : List (StarId × List StarId))
    (alts : List (StarId × StarId))
    (hAV : ∀ v ∈ alts.map Prod.snd, alts.lookup v = none) :
    ∀ (deps : List StarId) (desc : Finset StarId) (acc : List StarId),
    altClosed alts desc →
    ∃ pushed : List StarId,
      (deps.foldl (fun (st : Finset StarId × List StarId) dep =>
        if dep ∈ st.1 then st
        else
          ((match alts.lookup dep with
            | some a => insert a (insert dep st.1)
            | none => insert dep st.1), dep :: st.2)) (desc, acc)).2
        = pushed ++ acc ∧
      pushed.Nodup ∧
      (∀ x ∈ pushed, x ∈ deps ∧ x ∉ desc) ∧
      desc ⊆ (deps.foldl (fun (st : Finset StarId × List StarId) dep =>
        if dep ∈ st.1 then st
        else
          ((match alts.lookup dep with
            | some a => insert a (insert dep st.1)
            | none => insert dep st.1), dep :: st.2)) (desc, acc)).1 ∧
      (∀ d ∈ deps, d ∈ (deps.foldl (fun (st : Finset StarId × List StarId) dep =>
        if dep ∈ st.1 then st
        else
          ((match alts.lookup dep with
            | some a => insert a (insert dep st.1)
            | none => insert dep st.1), dep :: st.2)) (desc, acc)).1) ∧
      (∀ x ∈ (deps.foldl (fun (st : Finset StarId × List StarId) dep =>
        if dep ∈ st.1 then st
        else
          ((match alts.lookup dep with
            | some a => insert a (insert dep st.1)
            | none => insert dep st.1), dep :: st.2)) (desc, acc)).1,
        x ∈ desc ∨ x ∈ pushed ∨ x ∈ alts.map Prod.snd) ∧
      altClosed alts (deps.foldl (fun (st : Finset StarId × List StarId) dep =>
        if dep ∈ st.1 then st
        else
          ((match alts.lookup dep with
            | some a => insert a (insert dep st.1)
            | none => insert dep st.1), dep :: st.2)) (desc, acc)).1 := by
  intro deps
  induction deps with
  | nil =>
    intro desc acc hAC
    exact ⟨[], rfl, List.nodup_nil, by simp, fun x hx => hx, by simp,
      fun x hx => Or.inl hx, hAC⟩
  | cons d ds ih =>
    intro desc acc hAC
    rw [List.foldl_cons]
    by_cases hd : d ∈ desc
    · rw [if_pos hd]
      obtain ⟨pushed, h1, h2, h3, h4, h5, h6, h7⟩ := ih desc acc hAC
      refine ⟨pushed, h1, h2,
        fun x hx => ⟨List.mem_cons_of_mem _ (h3 x hx).1, (h3 x hx).2⟩, h4, ?_, h6, h7⟩
      intro x hx
      rcases List.mem_cons.mp hx with hx | hx
      · exact h4 (hx ▸ hd)
      · exact h5 x hx
    · rw [if_neg hd]
      rcases hlk : alts.lookup d with _ | a
      · -- no alternative for d
        simp only [hlk]
        have hAC1 : altClosed alts (insert d desc) := by
          intro x hx v hv
          rcases Finset.mem_insert.mp hx with hx | hx
          · rw [hx, hlk] at hv
            exact absurd hv (by simp)
          · exact Finset.mem_insert_of_mem (hAC x hx v hv)
        obtain ⟨pushed, h1, h2, h3, h4, h5, h6, h7⟩ := ih (insert d desc) (d :: acc) hAC1
        refine ⟨pushed ++ [d], by rw [h1]; simp, ?_, ?_, ?_, ?_, ?_, h7⟩
        · refine List.Nodup.append h2 (List.nodup_singleton d) ?_
          intro x hx hxd
          have : x = d := by simpa using hxd
          exact (h3 x hx).2 (this ▸ Finset.mem_insert_self d desc)
        · intro x hx
          rcases List.mem_append.mp hx with hx | hx
          · exact ⟨List.mem_cons_of_mem _ (h3 x hx).1,
              fun hc => (h3 x hx).2 (Finset.mem_insert_of_mem hc)⟩
          · have : x = d := by simpa using hx
            exact ⟨this ▸ List.mem_cons_self _ _, this ▸ hd⟩
        · exact fun x hx => h4 (Finset.mem_insert_of_mem hx)
        · intro x hx
          rcases List.mem_cons.mp hx with hx | hx
          · exact hx ▸ h4 (Finset.mem_insert_self _ _)
          · exact h5 x hx
        · intro x hx
          rcases h6 x hx with hx2 | hx2 | hx2
          · rcases Finset.mem_insert.mp hx2 with hx3 | hx3
            · exact Or.inr (Or.inl (by simp [hx3]))
            · exact Or.inl hx3
          · exact Or.inr (Or.inl (List.mem_append_left _ hx2))
          · exact Or.inr (Or.inr hx2)
      · -- d has a 100-coin alternative a
        simp only [hlk]
        have hamem : (d, a) ∈ alts := mem_of_lookup_eq_some hlk
        have haval : a ∈ alts.map Prod.snd := List.mem_map.mpr ⟨(d, a), hamem, rfl⟩
        have hAC1 : altClosed alts (insert a (insert d desc)) := by
          intro x hx v hv
          rcases Finset.mem_insert.mp hx with hx | hx
          · rw [hx, hAV a haval] at hv
            exact absurd hv (by simp)
          · rcases Finset.mem_insert.mp hx with hx2 | hx2
            · rw [hx2, hlk] at hv
              rw [Option.some.injEq] at hv
              rw [← hv]
              exact Finset.mem_insert_self _ _
            · exact Finset.mem_insert_of_mem
                (Finset.mem_insert_of_mem (hAC x hx2 v hv))
        obtain ⟨pushed, h1, h2, h3, h4, h5, h6, h7⟩ :=
          ih (insert a (insert d desc)) (d :: acc) hAC1
        refine ⟨pushed ++ [d], by rw [h1]; simp, ?_, ?_, ?_, ?_, ?_, h7⟩
        · refine List.Nodup.append h2 (List.nodup_singleton d) ?_
          intro x hx hxd
          have hxd2 : x = d := by simpa using hxd
          subst hxd2
          exact (h3 x hx).2 (Finset.mem_insert_of_mem (Finset.mem_insert_self x desc))
        · intro x hx
          rcases List.mem_append.mp hx with hx | hx
          · exact ⟨List.mem_cons_of_mem _ (h3 x hx).1,
              fun hc => (h3 x hx).2 (Finset.mem_insert_of_mem
                (Finset.mem_insert_of_mem hc))⟩
          · have : x = d := by simpa using hx
            exact ⟨this ▸ List.mem_cons_self _ _, this ▸ hd⟩
        · exact fun x hx => h4 (Finset.mem_insert_of_mem (Finset.mem_insert_of_mem hx))
        · intro x hx
          rcases List.mem_cons.mp hx with hx | hx
          · exact hx ▸ h4 (Finset.mem_insert_of_mem (Finset.mem_insert_self _ _))
          · exact h5 x hx
        · intro x hx
          rcases h6 x hx with hx2 | hx2 | hx2
          · rcases Finset.mem_insert.mp hx2 with hx3 | hx3
            · exact Or.inr (Or.inr (hx3 ▸ haval))
            · rcases Finset.mem_insert.mp hx3 with hx4 | hx4
              · exact Or.inr (Or.inl (by simp [hx4]))
              · exact Or.inl hx4
          · exact Or.inr (Or.inl (List.mem_append_left _ hx2))
          · exact Or.inr (Or.inr hx2)

theorem findDescendantsLoop_spec (adj : List (StarId × List StarId))
    (alts : List (StarId × StarId))
    (hAV : ∀ v ∈ alts.map Prod.snd, alts.lookup v = none) :
    ∀ (fuel : Nat) (desc : Finset StarId) (stack : List StarId),
    stack.length + 2 * ((dependantsUniverse adj).card
      - (desc ∩ dependantsUniverse adj).card) ≤ fuel →
    altClosed alts desc →
    (∀ x ∈ desc, x ∈ stack ∨ x ∈ alts.map Prod.snd ∨ depsIn adj desc x) →
    desc ⊆ findDescendantsLoop adj alts fuel desc stack ∧
    altClosed alts (findDescendantsLoop adj alts fuel desc stack) ∧
    (∀ x ∈ stack, depsIn adj (findDescendantsLoop adj alts fuel desc stack) x) ∧
    (∀ x ∈ findDescendantsLoop adj alts fuel desc stack,
      x ∈ alts.map Prod.snd ∨
        depsIn adj (findDescendantsLoop adj alts fuel desc stack) x) := by
  intro fuel
  induction fuel with
  | zero =>
    intro desc stack hfuel hAC hinv
    cases stack with
    | nil =>
      refine ⟨fun x hx => hx, hAC, by simp, ?_⟩
      intro x hx
      rcases hinv x hx with h | h | h
      · exact absurd h (by simp)
      · exact Or.inl h
      · exact Or.inr h
    | cons cur rest =>
      exfalso
      simp only [List.length_cons] at hfuel
      omega
  | succ n ih =>
    intro desc stack hfuel hAC hinv
    cases stack with
    | nil =>
      refine ⟨fun x hx => hx, hAC, by simp, ?_⟩
      intro x hx
      rcases hinv x hx with h | h | h
      · exact absurd h (by simp)
      · exact Or.inl h
      · exact Or.inr h
    | cons cur rest =>
      rcases hlcur : adj.lookup cur with _ | deps
      · -- the popped star has no dependants (the KeyError branch)
        have hcurdeps : depsIn adj desc cur := by
          intro d hd
          rw [hlcur] at hd
          exact absurd hd (by simp)
        have hred : findDescendantsLoop adj alts (n + 1) desc (cur :: rest) =
            findDescendantsLoop adj alts n desc rest := by
          simp only [findDescendantsLoop, hlcur]
        rw [hred]
        have hinv2 : ∀ x ∈ desc,
            x ∈ rest ∨ x ∈ alts.map Prod.snd ∨ depsIn adj desc x := by
          intro x hx
          rcases hinv x hx with h | h | h
          · rcases List.mem_cons.mp h with h | h
            · exact Or.inr (Or.inr (h ▸ hcurdeps))
            · exact Or.inl h
          · exact Or.inr (Or.inl h)
          · exact Or.inr (Or.inr h)
        obtain ⟨l1, l2, l3, l4⟩ := ih desc rest
          (by simp only [List.length_cons] at hfuel; omega) hAC hinv2
        refine ⟨l1, l2, ?_, l4⟩
        intro x hx
        rcases List.mem_cons.mp hx with h | h
        · subst h
          intro d hd
          rw [hlcur] at hd
          exact absurd hd (by simp)
        · exact l3 x h
      · -- the popped star has the dependant list deps
        have hcurmem : (cur, deps) ∈ adj := mem_of_lookup_eq_some hlcur
        have hdepsU : ∀ d ∈ deps, d ∈ dependantsUniverse adj := fun d hd =>
          List.mem_toFinset.mpr (List.mem_flatMap.mpr ⟨(cur, deps), hcurmem, hd⟩)
        obtain ⟨pushed, h1, h2, h3, h4, h5, h6, h7⟩ :=
          fdFold_spec adj alts hAV deps desc [] hAC
        rw [List.append_nil] at h1
        simp only [findDescendantsLoop, hlcur]
        set P := deps.foldl (fun (st : Finset StarId × List StarId) dep =>
          if dep ∈ st.1 then st
          else
            ((match alts.lookup dep with
              | some a => insert a (insert dep st.1)
              | none => insert dep st.1), dep :: st.2)) (desc, []) with hP
        rw [h1]
        have hpushP : ∀ x ∈ pushed, x ∈ P.1 := fun x hx => h5 x (h3 x hx).1
        have hsub : (desc ∩ dependantsUniverse adj) ∪ pushed.toFinset ⊆
            P.1 ∩ dependantsUniverse adj := by
          intro x hx
          rcases Finset.mem_union.mp hx with hx | hx
          · exact Finset.mem_inter.mpr
              ⟨h4 (Finset.mem_inter.mp hx).1, (Finset.mem_inter.mp hx).2⟩
          · have hxp := List.mem_toFinset.mp hx
            exact Finset.mem_inter.mpr ⟨hpushP x hxp, hdepsU x (h3 x hxp).1⟩
        have hdisj : Disjoint (desc ∩ dependantsUniverse adj) pushed.toFinset := by
          rw [Finset.disjoint_left]
          intro x hx hx2
          exact (h3 x (List.mem_toFinset.mp hx2)).2 (Finset.mem_inter.mp hx).1
        have hcard := Finset.card_le_card hsub
        rw [Finset.card_union_of_disjoint hdisj,
          List.toFinset_card_of_nodup h2] at hcard
        have hPUle : (P.1 ∩ dependantsUniverse adj).card ≤
            (dependantsUniverse adj).card :=
          Finset.card_le_card Finset.inter_subset_right
        have hdescUle : (desc ∩ dependantsUniverse adj).card ≤
            (dependantsUniverse adj).card :=
          Finset.card_le_card Finset.inter_subset_right
        have hf : (pushed ++ rest).length +
            2 * ((dependantsUniverse adj).card -
              (P.1 ∩ dependantsUniverse adj).card) ≤ n := by
          simp only [List.length_cons] at hfuel
          simp only [List.length_append]
          omega
        have hdepsP : depsIn adj P.1 cur := by
          intro d hd
          rw [hlcur] at hd
          exact h5 d hd
        have hinv2 : ∀ x ∈ P.1,
            x ∈ pushed ++ rest ∨ x ∈ alts.map Prod.snd ∨ depsIn adj P.1 x := by
          intro x hx
          rcases h6 x hx with hx2 | hx2 | hx2
          · rcases hinv x hx2 with hx3 | hx3 | hx3
            · rcases List.mem_cons.mp hx3 with hx4 | hx4
              · exact Or.inr (Or.inr (hx4 ▸ hdepsP))
              · exact Or.inl (List.mem_append_right _ hx4)
            · exact Or.inr (Or.inl hx3)
            · exact Or.inr (Or.inr (fun d hd => h4 (hx3 d hd)))
          · exact Or.inl (List.mem_append_left _ hx2)
          · exact Or.inr (Or.inl hx2)
        obtain ⟨l1, l2, l3, l4⟩ := ih P.1 (pushed ++ rest) hf h7 hinv2
        refine ⟨fun x hx => l1 (h4 hx), l2, ?_, l4⟩
        intro x hx
        rcases List.mem_cons.mp hx with hx | hx
        · subst hx
          exact fun d hd => l1 (hdepsP d hd)
        · exact l3 x (List.mem_append_right _ hx)

theorem find_descendants_spec (star_id : StarId)
    (adj : List (StarId × List StarId)) (alts : List (StarId × StarId))
    (hAV : ∀ v ∈ alts.map Prod.snd, alts.lookup v = none) :
    altClosed alts (find_descendants star_id adj alts) ∧
    depsIn adj (find_descendants star_id adj alts) star_id ∧
    (∀ x ∈ find_descendants star_id adj alts,
      x ∈ alts.map Prod.snd ∨
        depsIn adj (find_descendants star_id adj alts) x) := by
  have h := findDescendantsLoop_spec adj alts hAV
    (1 + 2 * (dependantsUniverse adj).card) ∅ [star_id]
    (by simp) (fun x hx => absurd hx (Finset.not_mem_empty x))
    (fun x hx => absurd hx (Finset.not_mem_empty x))
  obtain ⟨_, l2, l3, l4⟩ := h
  exact ⟨l2, l3 star_id (List.mem_singleton_self _), l4⟩

theorem find_descendants_reach (star_id : StarId)
    (adj : List (StarId × List StarId)) (alts : List (StarId × StarId))
    (hAV : ∀ v ∈ alts.map Prod.snd, alts.lookup v = none)
    (hVA : ∀ pr ∈ alts, pr.2 ∉ adjKeys adj)
    {d : StarId} (h : isDescendant adj star_id d) :
    d ∈ find_descendants star_id adj alts ∧
    ∀ v, alts.lookup d = some v → v ∈ find_descendants star_id adj alts := by
  obtain ⟨hac, hdeps, hrest⟩ := find_descendants_spec star_id adj alts hAV
  induction h with
  | single hE =>
    have hd := hdeps _ hE
    exact ⟨hd, fun v hv => hac _ hd v hv⟩
  | tail hT hE ih =>
    obtain ⟨hb, _⟩ := ih
    rcases hrest _ hb with hbv | hbd
    · exfalso
      obtain ⟨pr, hpr, hpr2⟩ := List.mem_map.mp hbv
      have hnone := lookup_eq_none_of_not_mem_keys (hpr2 ▸ hVA pr hpr)
      have hE2 : _ ∈ ((adj.lookup _).getD ([] : List StarId)) := hE
      rw [hnone] at hE2
      exact absurd hE2 (by simp)
    · have hd := hbd _ hE
      exact ⟨hd, fun v hv => hac _ hd v hv⟩

theorem find_descendants_closed (star_id : StarId)
    (adj : List (StarId × List StarId)) (alts : List (StarId × StarId))
    (hAV : ∀ v ∈ alts.map Prod.snd, alts.lookup v = none)
    (hVA : ∀ pr ∈ alts, pr.2 ∉ adjKeys adj)
    {e d : StarId} (he : e ∈ find_descendants star_id adj alts)
    (h : isDescendant adj e d) :
    d ∈ find_descendants star_id adj alts ∧
    ∀ v, alts.lookup d = some v → v ∈ find_descendants star_id adj alts := by
  obtain ⟨hac, _, hrest⟩ := find_descendants_spec star_id adj alts hAV
  induction h with
  | single hE =>
    rcases hrest _ he with hev | hed
    · exfalso
      obtain ⟨pr, hpr, hpr2⟩ := List.mem_map.mp hev
      have hnone := lookup_eq_none_of_not_mem_keys (hpr2 ▸ hVA pr hpr)
      have hE2 : _ ∈ ((adj.lookup _).getD ([] : List StarId)) := hE
      rw [hnone] at hE2
      exact absurd hE2 (by simp)
    · have hd := hed _ hE
      exact ⟨hd, fun v hv => hac _ hd v hv⟩
  | tail hT hE ih =>
    obtain ⟨hb, _⟩ := ih
    rcases hrest _ hb with hbv | hbd
    · exfalso
      obtain ⟨pr, hpr, hpr2⟩ := List.mem_map.mp hbv
      have hnone := lookup_eq_none_of_not_mem_keys (hpr2 ▸ hVA pr hpr)
      have hE2 : _ ∈ ((adj.lookup _).getD ([] : List StarId)) := hE
      rw [hnone] at hE2
      exact absurd hE2 (by simp)
    · have hd := hbd _ hE
      exact ⟨hd, fun v hv => hac _ hd v hv⟩

/-- A star listed as a 100-coin value of the exclusivity mapping has no
entry in the adjacency mapping, hence no descendants. -/
theorem alt_value_no_edge {adj : List (StarId × List StarId)}
    {alts : List (StarId × StarId)} (hVA : ∀ pr ∈ alts, pr.2 ∉ adjKeys adj)
    {a : StarId} (ha : a ∈ alts.map Prod.snd) {d : StarId}
    (h : isDescendant adj a d) : False := by
  obtain ⟨pr, hpr, hpr2⟩ := List.mem_map.mp ha
  have hnone := lookup_eq_none_of_not_mem_keys (hpr2 ▸ hVA pr hpr)
  obtain ⟨c, hE, _⟩ := Relation.TransGen.head'_iff.mp h
  have hE2 : _ ∈ ((adj.lookup _).getD ([] : List StarId)) := hE
  rw [hnone] at hE2
  exact absurd hE2 (by simp)

/-- The per-element exclusion invariant of the partition generator is
monotone under growing the included and excluded sets. -/
theorem excInvElem_mono {adj : List (StarId × List StarId)}
    {alts : List (StarId × StarId)} {inc inc' exc exc' : Finset StarId}
    (hinc : inc ⊆ inc') (hexc : exc ⊆ exc') {e : StarId}
    (h : (∃ x, (e, x) ∈ alts ∧ x ∈ inc) ∨ (∃ b, (b, e) ∈ alts ∧ b ∈ inc) ∨
      (∀ d, isDescendant adj e d →
        d ∈ exc ∧ ∀ v, alts.lookup d = some v → v ∈ exc)) :
    (∃ x, (e, x) ∈ alts ∧ x ∈ inc') ∨ (∃ b, (b, e) ∈ alts ∧ b ∈ inc') ∨
      (∀ d, isDescendant adj e d →
        d ∈ exc' ∧ ∀ v, alts.lookup d = some v → v ∈ exc') := by
  rcases h with ⟨x, hx, hxm⟩ | ⟨b, hb, hbm⟩ | h3
  · exact Or.inl ⟨x, hx, hinc hxm⟩
  · exact Or.inr (Or.inl ⟨b, hb, hinc hbm⟩)
  · exact Or.inr (Or.inr (fun d hd =>
      ⟨hexc (h3 d hd).1, fun v hv => hexc ((h3 d hd).2 v hv)⟩))

/-- Descendant-closure invariant of `_generate_valid_partitions_recursive`:
every excluded star either has its exclusivity partner included, or all of
its transitive descendants (with their 100-coin alternatives) are also
excluded. -/
theorem genPartitions_descendants (adj : List (StarId × List StarId))
    (alts : List (StarId × StarId)) (eligible : Finset StarId)
    (hAV : ∀ v ∈ alts.map Prod.snd, alts.lookup v = none)
    (hVA : ∀ pr ∈ alts, pr.2 ∉ adjKeys adj) :
    ∀ (order : List StarId) (inc exc : Finset StarId),
    (∀ e ∈ exc,
      (∃ x, (e, x) ∈ alts ∧ x ∈ inc) ∨ (∃ b, (b, e) ∈ alts ∧ b ∈ inc) ∨
      (∀ d, isDescendant adj e d →
        d ∈ exc ∧ ∀ v, alts.lookup d = some v → v ∈ exc)) →
    ∀ p ∈ generateValidPartitionsRecursive adj alts eligible order inc exc,
      ∀ e ∈ p.2,
        (∃ x, (e, x) ∈ alts ∧ x ∈ p.1) ∨ (∃ b, (b, e) ∈ alts ∧ b ∈ p.1) ∨
        (∀ d, isDescendant adj e d →
          d ∈ p.2 ∧ ∀ v, alts.lookup d = some v → v ∈ p.2) := by
  intro order
  induction order with
  | nil =>
    intro inc exc hI p hp
    simp only [generateValidPartitionsRecursive, List.mem_singleton] at hp
    subst hp
    exact hI
  | cons cur rest ih =>
    intro inc exc hI p hp
    simp only [generateValidPartitionsRecursive, List.append_assoc,
      List.mem_append] at hp
    rcases hp with hp | hp | hp
    · -- DDD1 fall-through branch: sets unchanged
      by_cases hddd : cur = STAR_DDD1_ID
      · rw [if_pos hddd] at hp
        exact ih inc exc hI p hp
      · rw [if_neg hddd] at hp
        simp at hp
    · -- include branch
      rcases List.mem_flatMap.mp hp with ⟨pr0, hpr0, hpgen⟩
      rcases hlk : alts.lookup cur with _ | a
      · by_cases hbe : cur ∈ eligible ∧ cur ∉ exc
        · simp [get_star_and_alternative_id_pairs, hlk, hbe] at hpr0
          subst hpr0
          exact ih (insert cur inc) exc
            (fun e he => excInvElem_mono
              (fun x hx => Finset.mem_insert_of_mem hx) (fun x hx => hx)
              (hI e he)) p hpgen
        · simp [get_star_and_alternative_id_pairs, hlk, hbe] at hpr0
      · have hmemca : (cur, a) ∈ alts := mem_of_lookup_eq_some hlk
        by_cases hae : a ∈ eligible ∧ a ∉ exc
        · by_cases hbe : cur ∈ eligible ∧ cur ∉ exc
          · simp [get_star_and_alternative_id_pairs, hlk, hae, hbe] at hpr0
            rcases hpr0 with hpr0 | hpr0
            · -- include the base star cur, exclude its alternative a
              subst hpr0
              refine ih (insert cur inc) (insert a exc) ?_ p hpgen
              intro e he
              rcases Finset.mem_insert.mp he with he | he
              · subst he
                exact Or.inr (Or.inl ⟨cur, hmemca, Finset.mem_insert_self _ _⟩)
              · exact excInvElem_mono
                  (fun x hx => Finset.mem_insert_of_mem hx)
                  (fun x hx => Finset.mem_insert_of_mem hx) (hI e he)
            · -- include the alternative a, exclude the base star cur
              subst hpr0
              refine ih (insert a inc) (insert cur exc) ?_ p hpgen
              intro e he
              rcases Finset.mem_insert.mp he with he | he
              · subst he
                exact Or.inl ⟨a, hmemca, Finset.mem_insert_self _ _⟩
              · exact excInvElem_mono
                  (fun x hx => Finset.mem_insert_of_mem hx)
                  (fun x hx => Finset.mem_insert_of_mem hx) (hI e he)
          · simp [get_star_and_alternative_id_pairs, hlk, hae, hbe] at hpr0
            subst hpr0
            exact ih (insert a inc) exc
              (fun e he => excInvElem_mono
                (fun x hx => Finset.mem_insert_of_mem hx) (fun x hx => hx)
                (hI e he)) p hpgen
        · by_cases hbe : cur ∈ eligible ∧ cur ∉ exc
          · simp [get_star_and_alternative_id_pairs, hlk, hae, hbe] at hpr0
            subst hpr0
            exact ih (insert cur inc) exc
              (fun e he => excInvElem_mono
                (fun x hx => Finset.mem_insert_of_mem hx) (fun x hx => hx)
                (hI e he)) p hpgen
          · simp [get_star_and_alternative_id_pairs, hlk, hae, hbe] at hpr0
    · -- exclusion branch: exclude cur, its descendants, and alternatives
      have hbase : ∀ e ∈ exc ∪ {cur} ∪ find_descendants cur adj alts,
          (∃ x, (e, x) ∈ alts ∧ x ∈ inc) ∨ (∃ b, (b, e) ∈ alts ∧ b ∈ inc) ∨
          (∀ d, isDescendant adj e d →
            d ∈ exc ∪ {cur} ∪ find_descendants cur adj alts ∧
            ∀ v, alts.lookup d = some v →
              v ∈ exc ∪ {cur} ∪ find_descendants cur adj alts) := by
        intro e he
        rcases Finset.mem_union.mp he with he | heF
        · rcases Finset.mem_union.mp he with he | hec
          · exact excInvElem_mono (fun x hx => hx)
              (fun x hx => Finset.mem_union_left _ (Finset.mem_union_left _ hx))
              (hI e he)
          · have hec2 : e = cur := Finset.mem_singleton.mp hec
            subst hec2
            refine Or.inr (Or.inr ?_)
            intro d hd
            obtain ⟨hd1, hd2⟩ := find_descendants_reach e adj alts hAV hVA hd
            exact ⟨Finset.mem_union_right _ hd1,
              fun v hv => Finset.mem_union_right _ (hd2 v hv)⟩
        · refine Or.inr (Or.inr ?_)
          intro d hd
          obtain ⟨hd1, hd2⟩ := find_descendants_closed cur adj alts hAV hVA heF hd
          exact ⟨Finset.mem_union_right _ hd1,
            fun v hv => Finset.mem_union_right _ (hd2 v hv)⟩
      rcases hlk : alts.lookup cur with _ | a
      · simp only [hlk] at hp
        exact ih inc (exc ∪ {cur} ∪ find_descendants cur adj alts) hbase p hp
      · simp only [hlk] at hp
        have hmemca : (cur, a) ∈ alts := mem_of_lookup_eq_some hlk
        have haVal : a ∈ alts.map Prod.snd := List.mem_map.mpr ⟨(cur, a), hmemca, rfl⟩
        refine ih inc (insert a (exc ∪ {cur} ∪ find_descendants cur adj alts))
          ?_ p hp
        intro e he
        rcases Finset.mem_insert.mp he with he | he
        · subst he
          exact Or.inr (Or.inr (fun d hd =>
            (alt_value_no_edge hVA haVal hd).elim))
        · exact excInvElem_mono (fun x hx => hx)
            (fun x hx => Finset.mem_insert_of_mem hx) (hbase e he)

/-! ### Upper-level quota lemmas (claim C2) -/

theorem unitWeight_ge_one (hundred : Finset StarId) (id : StarId) :
    1 ≤ unitWeight hundred id := by
  unfold unitWeight
  split <;> omega

/-- A trace whose recorded counts stay below `maxCount` has at most
`maxCount - c` entries: every addition raises the running count by at
least one unit. -/
theorem trace_length_le (hundred : Finset StarId) (maxCount : ℤ) :
    ∀ (trace : List (StarId × ℤ)) (c : ℤ),
    traceConsistent hundred c trace →
    (∀ e ∈ trace, e.2 < maxCount) →
    trace = [] ∨ (trace.length : ℤ) ≤ maxCount - c := by
  intro trace
  induction trace with
  | nil =>
    intro c _ _
    exact Or.inl rfl
  | cons e rest ih =>
    intro c hcons hb
    rcases e with ⟨id, c0⟩
    obtain ⟨he, hrest⟩ := hcons
    have hc0 : c0 < maxCount := hb (id, c0) (List.mem_cons_self _ _)
    have hw := unitWeight_ge_one hundred id
    refine Or.inr ?_
    rcases ih (c + unitWeight hundred id) hrest
        (fun e' he' => hb e' (List.mem_cons_of_mem _ he')) with hnil | hlen
    · subst hnil
      simp only [List.length_cons, List.length_nil]
      push_cast
      omega
    · simp only [List.length_cons]
      push_cast at hlen ⊢
      omega

theorem numUpper_union_le (locs : StarId → String) (S T : Finset StarId) :
    partitionNumUpperLevel locs (S ∪ T) ≤
      partitionNumUpperLevel locs S + partitionNumUpperLevel locs T := by
  have h : partitionNumUpperLevel locs (S ∪ T) +
      partitionNumUpperLevel locs (S ∩ T) =
      partitionNumUpperLevel locs S + partitionNumUpperLevel locs T :=
    Finset.sum_union_inter
  have hnn : 0 ≤ partitionNumUpperLevel locs (S ∩ T) :=
    Finset.sum_nonneg (fun i _ => by split <;> omega)
  omega

theorem numUpper_le_card (locs : StarId → String) (T : Finset StarId) :
    partitionNumUpperLevel locs T ≤ (T.card : ℤ) := by
  have h1 : partitionNumUpperLevel locs T ≤ T.sum (fun _ => (1 : ℤ)) :=
    Finset.sum_le_sum (fun i _ => by split <;> omega)
  simpa using h1

theorem numUpper_eq_zero (locs : StarId → String) (T : Finset StarId)
    (h : ∀ x ∈ T, locs x ∉ UPPER_LEVEL_LOCATIONS) :
    partitionNumUpperLevel locs T = 0 :=
  Finset.sum_eq_zero (fun x hx => if_neg (h x hx))

/-- When the partition fold produces a result, either it was the starting
accumulator or some partition passed the quota pre-check and both
augmentation phases, yielding exactly that result. -/
theorem routeFold_some (tuples : List (Time × StarId)) (hundred : Finset StarId)
    (locs : StarId → String) (req : StarId → ℤ) (maxUpper : ℤ) :
    ∀ (parts : List (Finset StarId × Finset StarId))
      (best : Option (Time × Finset StarId)) (t : Time) (S : Finset StarId),
    parts.foldl (routePartitionStep tuples hundred locs req maxUpper) best
      = some (t, S) →
    best = some (t, S) ∨
    ∃ p ∈ parts, ∃ t1 S1,
      ¬ partitionNumUpperLevel locs p.1 > maxUpper ∧
      add_non_special_stars_to_star_set
        (partitionStartingTime tuples hundred p.1)
        (partitionStartingCount hundred p.1)
        (NUM_STARS_IN_ROUTE - maxUpper + partitionNumUpperLevel locs p.1)
        (ALL_LOCATIONS \ UPPER_LEVEL_LOCATIONS) p.1 p.2 tuples hundred locs req
        = .ok (t1, S1) ∧
      add_non_special_stars_to_star_set t1
        (max (partitionStartingCount hundred p.1)
          (NUM_STARS_IN_ROUTE - maxUpper + partitionNumUpperLevel locs p.1))
        NUM_STARS_IN_ROUTE ALL_LOCATIONS S1 p.2 tuples hundred locs req
        = .ok (t, S) := by
  intro parts
  induction parts with
  | nil =>
    intro best t S h
    exact Or.inl h
  | cons p ps ih =>
    intro best t S h
    rw [List.foldl_cons] at h
    rcases ih _ t S h with hstep | ⟨p', hp', rest⟩
    · simp only [routePartitionStep] at hstep
      by_cases hskip : partitionNumUpperLevel locs p.1 > maxUpper
      · rw [if_pos hskip] at hstep
        exact Or.inl hstep
      · rw [if_neg hskip] at hstep
        rcases heq1 : add_non_special_stars_to_star_set
            (partitionStartingTime tuples hundred p.1)
            (partitionStartingCount hundred p.1)
            (NUM_STARS_IN_ROUTE - maxUpper + partitionNumUpperLevel locs p.1)
            (ALL_LOCATIONS \ UPPER_LEVEL_LOCATIONS) p.1 p.2 tuples hundred
            locs req
          with e | ⟨t1, S1⟩
        · simp only [heq1] at hstep
          exact Or.inl hstep
        · simp only [heq1] at hstep
          rcases heq2 : add_non_special_stars_to_star_set t1
              (max (partitionStartingCount hundred p.1)
                (NUM_STARS_IN_ROUTE - maxUpper + partitionNumUpperLevel locs p.1))
              NUM_STARS_IN_ROUTE ALL_LOCATIONS S1 p.2 tuples hundred locs req
            with e | ⟨t2, S2⟩
          · simp only [heq2] at hstep
            exact Or.inl hstep
          · simp only [heq2] at hstep
            rcases best with _ | ⟨bt, bs⟩
            · have hstep2 : some (t2, S2) = some (t, S) := hstep
              rw [Option.some.injEq] at hstep2
              injection hstep2 with h1 h2
              subst h1 h2
              exact Or.inr ⟨p, List.mem_cons_self _ _, t1, S1, hskip, heq1, heq2⟩
            · have hstep2 : (if t2 < bt then some (t2, S2) else some (bt, bs))
                  = some (t, S) := hstep
              by_cases hlt : t2 < bt
              · rw [if_pos hlt, Option.some.injEq] at hstep2
                injection hstep2 with h1 h2
                subst h1 h2
                exact Or.inr ⟨p, List.mem_cons_self _ _, t1, S1, hskip, heq1, heq2⟩
              · rw [if_neg hlt] at hstep2
                exact Or.inl hstep2
    · exact Or.inr ⟨p', List.mem_cons_of_mem _ hp', rest⟩

/-! ### Partition-generator exclusivity invariant (claim C10) -/

theorem genPartitions_exclusivity (adj : List (StarId × List StarId))
    (alts : List (StarId × StarId)) (eligible : Finset StarId)
    (hKN : (alts.map Prod.fst).Nodup)
    (hVN : (alts.map Prod.snd).Nodup)
    (hKV : ∀ pr ∈ alts, pr.2 ∉ alts.map Prod.fst) :
    ∀ (order : List StarId) (inc exc : Finset StarId),
    (∀ s ∈ order, s ∉ alts.map Prod.snd) →
    (∀ pr ∈ alts, pr.1 ∈ inc → pr.2 ∈ exc ∨ pr.2 ∉ eligible) →
    (∀ pr ∈ alts, pr.2 ∈ inc → pr.1 ∈ exc ∨ pr.1 ∉ eligible) →
    (∀ pr ∈ alts, ¬(pr.1 ∈ inc ∧ pr.2 ∈ inc)) →
    ∀ p ∈ generateValidPartitionsRecursive adj alts eligible order inc exc,
      ∀ pr ∈ alts, ¬(pr.1 ∈ p.1 ∧ pr.2 ∈ p.1) := by
  intro order
  induction order with
  | nil =>
    intro inc exc _ _ _ h3 p hp
    simp only [generateValidPartitionsRecursive, List.mem_singleton] at hp
    subst hp
    exact h3
  | cons cur rest ih =>
    intro inc exc hord h1 h2 h3 p hp
    have hcurV : cur ∉ alts.map Prod.snd := hord cur (List.mem_cons_self _ _)
    have hordR : ∀ s ∈ rest, s ∉ alts.map Prod.snd :=
      fun s hsr => hord s (List.mem_cons_of_mem _ hsr)
    simp only [generateValidPartitionsRecursive, List.append_assoc,
      List.mem_append] at hp
    rcases hp with hp | hp | hp
    · -- DDD1 skip branch: sets unchanged
      by_cases hddd : cur = STAR_DDD1_ID
      · rw [if_pos hddd] at hp
        exact ih inc exc hordR h1 h2 h3 p hp
      · rw [if_neg hddd] at hp
        simp at hp
    · -- include branch
      rcases List.mem_flatMap.mp hp with ⟨pr0, hpr0, hpgen⟩
      rcases hlk : alts.lookup cur with _ | a
      · by_cases hbe : cur ∈ eligible ∧ cur ∉ exc
        · simp [get_star_and_alternative_id_pairs, hlk, hbe] at hpr0
          subst hpr0
          refine ih (insert cur inc) exc hordR ?_ ?_ ?_ p hpgen
          · intro pr hpr hin
            rcases Finset.mem_insert.mp hin with hc | hc
            · exfalso
              obtain ⟨c, hlc⟩ := lookup_isSome_of_mem
                (show (cur, pr.2) ∈ alts from hc ▸ hpr)
              rw [hlc] at hlk
              exact absurd hlk (by simp)
            · exact h1 pr hpr hc
          · intro pr hpr hin
            rcases Finset.mem_insert.mp hin with hc | hc
            · exact absurd (List.mem_map.mpr ⟨pr, hpr, hc⟩) hcurV
            · exact h2 pr hpr hc
          · intro pr hpr hboth
            rcases Finset.mem_insert.mp hboth.1 with hc1 | hc1 <;>
              rcases Finset.mem_insert.mp hboth.2 with hc2 | hc2
            · exact absurd (List.mem_map.mpr ⟨pr, hpr, hc2⟩) hcurV
            · exfalso
              obtain ⟨c, hlc⟩ := lookup_isSome_of_mem
                (show (cur, pr.2) ∈ alts from hc1 ▸ hpr)
              rw [hlc] at hlk
              exact absurd hlk (by simp)
            · exact absurd (List.mem_map.mpr ⟨pr, hpr, hc2⟩) hcurV
            · exact h3 pr hpr ⟨hc1, hc2⟩
        · simp [get_star_and_alternative_id_pairs, hlk, hbe] at hpr0
      · have hmemca : (cur, a) ∈ alts := mem_of_lookup_eq_some hlk
        have haVal : a ∈ alts.map Prod.snd := List.mem_map.mpr ⟨(cur, a), hmemca, rfl⟩
        have haNotKey : a ∉ alts.map Prod.fst := hKV (cur, a) hmemca
        have hkeyeq : ∀ pr ∈ alts, pr.1 = cur → pr.2 = a := by
          intro pr hpr hc
          exact alts_key_unique hKN (show (cur, pr.2) ∈ alts from hc ▸ hpr) hmemca
        have hvaleq : ∀ pr ∈ alts, pr.2 = a → pr.1 = cur := by
          intro pr hpr hc
          exact alts_val_unique hVN (show (pr.1, a) ∈ alts from hc ▸ hpr) hmemca
        by_cases hae : a ∈ eligible ∧ a ∉ exc
        · by_cases hbe : cur ∈ eligible ∧ cur ∉ exc
          · simp [get_star_and_alternative_id_pairs, hlk, hae, hbe] at hpr0
            rcases hpr0 with hpr0 | hpr0
            · -- include the base star cur, exclude its alternative a
              subst hpr0
              refine ih (insert cur inc) (insert a exc) hordR ?_ ?_ ?_ p hpgen
              · intro pr hpr hin
                rcases Finset.mem_insert.mp hin with hc | hc
                · exact Or.inl (by rw [hkeyeq pr hpr hc]; exact Finset.mem_insert_self _ _)
                · exact (h1 pr hpr hc).imp Finset.mem_insert_of_mem id
              · intro pr hpr hin
                rcases Finset.mem_insert.mp hin with hc | hc
                · exact absurd (List.mem_map.mpr ⟨pr, hpr, hc⟩) hcurV
                · exact (h2 pr hpr hc).imp Finset.mem_insert_of_mem id
              · intro pr hpr hboth
                rcases Finset.mem_insert.mp hboth.1 with hc1 | hc1 <;>
                  rcases Finset.mem_insert.mp hboth.2 with hc2 | hc2
                · exact absurd (List.mem_map.mpr ⟨pr, hpr, hc2⟩) hcurV
                · have hpa : pr.2 = a := hkeyeq pr hpr hc1
                  have := h2 (cur, a) hmemca (hpa ▸ hc2)
                  rcases this with h | h
                  · exact hbe.2 h
                  · exact h hbe.1
                · exact absurd (List.mem_map.mpr ⟨pr, hpr, hc2⟩) hcurV
                · exact h3 pr hpr ⟨hc1, hc2⟩
            · -- include the alternative a, exclude the base star cur
              subst hpr0
              refine ih (insert a inc) (insert cur exc) hordR ?_ ?_ ?_ p hpgen
              · intro pr hpr hin
                rcases Finset.mem_insert.mp hin with hc | hc
                · exact absurd (List.mem_map.mpr ⟨pr, hpr, hc⟩) haNotKey
                · exact (h1 pr hpr hc).imp Finset.mem_insert_of_mem id
              · intro pr hpr hin
                rcases Finset.mem_insert.mp hin with hc | hc
                · exact Or.inl (by rw [hvaleq pr hpr hc]; exact Finset.mem_insert_self _ _)
                · exact (h2 pr hpr hc).imp Finset.mem_insert_of_mem id
              · intro pr hpr hboth
                rcases Finset.mem_insert.mp hboth.1 with hc1 | hc1 <;>
                  rcases Finset.mem_insert.mp hboth.2 with hc2 | hc2
                · exact absurd (List.mem_map.mpr ⟨pr, hpr, hc1⟩) haNotKey
                · exact absurd (List.mem_map.mpr ⟨pr, hpr, hc1⟩) haNotKey
                · have hpc : pr.1 = cur := hvaleq pr hpr hc2
                  have := h1 (cur, a) hmemca (hpc ▸ hc1)
                  rcases this with h | h
                  · exact hae.2 h
                  · exact h hae.1
                · exact h3 pr hpr ⟨hc1, hc2⟩
          · -- base not offered: only the alternative is included
            simp [get_star_and_alternative_id_pairs, hlk, hae, hbe] at hpr0
            subst hpr0
            refine ih (insert a inc) exc hordR ?_ ?_ ?_ p hpgen
            · intro pr hpr hin
              rcases Finset.mem_insert.mp hin with hc | hc
              · exact absurd (List.mem_map.mpr ⟨pr, hpr, hc⟩) haNotKey
              · exact h1 pr hpr hc
            · intro pr hpr hin
              rcases Finset.mem_insert.mp hin with hc | hc
              · have hpc : pr.1 = cur := hvaleq pr hpr hc
                rw [hpc]
                by_cases hce : cur ∈ eligible
                · exact Or.inl (by
                    rcases not_and_or.mp hbe with h | h
                    · exact absurd hce h
                    · exact not_not.mp h)
                · exact Or.inr hce
              · exact h2 pr hpr hc
            · intro pr hpr hboth
              rcases Finset.mem_insert.mp hboth.1 with hc1 | hc1 <;>
                rcases Finset.mem_insert.mp hboth.2 with hc2 | hc2
              · exact absurd (List.mem_map.mpr ⟨pr, hpr, hc1⟩) haNotKey
              · exact absurd (List.mem_map.mpr ⟨pr, hpr, hc1⟩) haNotKey
              · have hpc : pr.1 = cur := hvaleq pr hpr hc2
                have := h1 (cur, a) hmemca (hpc ▸ hc1)
                rcases this with h | h
                · exact hae.2 h
                · exact h hae.1
              · exact h3 pr hpr ⟨hc1, hc2⟩
        · by_cases hbe : cur ∈ eligible ∧ cur ∉ exc
          · -- alternative not offered: only the base star is included
            simp [get_star_and_alternative_id_pairs, hlk, hae, hbe] at hpr0
            subst hpr0
            refine ih (insert cur inc) exc hordR ?_ ?_ ?_ p hpgen
            · intro pr hpr hin
              rcases Finset.mem_insert.mp hin with hc | hc
              · have hpa : pr.2 = a := hkeyeq pr hpr hc
                rw [hpa]
                by_cases hce : a ∈ eligible
                · exact Or.inl (by
                    rcases not_and_or.mp hae with h | h
                    · exact absurd hce h
                    · exact not_not.mp h)
                · exact Or.inr hce
              · exact h1 pr hpr hc
            · intro pr hpr hin
              rcases Finset.mem_insert.mp hin with hc | hc
              · exact absurd (List.mem_map.mpr ⟨pr, hpr, hc⟩) hcurV
              · exact h2 pr hpr hc
            · intro pr hpr hboth
              rcases Finset.mem_insert.mp hboth.1 with hc1 | hc1 <;>
                rcases Finset.mem_insert.mp hboth.2 with hc2 | hc2
              · exact absurd (List.mem_map.mpr ⟨pr, hpr, hc2⟩) hcurV
              · have hpa : pr.2 = a := hkeyeq pr hpr hc1
                have := h2 (cur, a) hmemca (hpa ▸ hc2)
                rcases this with h | h
                · exact hbe.2 h
                · exact h hbe.1
              · exact absurd (List.mem_map.mpr ⟨pr, hpr, hc2⟩) hcurV
              · exact h3 pr hpr ⟨hc1, hc2⟩
          · simp [get_star_and_alternative_id_pairs, hlk, hae, hbe] at hpr0
    · -- exclusion branch: included unchanged, excluded grows
      rcases hl : alts.lookup cur with _ | b <;> rw [hl] at hp
      · refine ih inc (exc ∪ {cur} ∪ find_descendants cur adj alts) hordR
          ?_ ?_ h3 p hp
        · intro pr hpr hin
          exact (h1 pr hpr hin).imp
            (fun h => Finset.mem_union_left _ (Finset.mem_union_left _ h)) id
        · intro pr hpr hin
          exact (h2 pr hpr hin).imp
            (fun h => Finset.mem_union_left _ (Finset.mem_union_left _ h)) id
      · refine ih inc
          (insert b (exc ∪ {cur} ∪ find_descendants cur adj alts)) hordR
          ?_ ?_ h3 p hp
        · intro pr hpr hin
          exact (h1 pr hpr hin).imp (fun h => Finset.mem_insert_of_mem
            (Finset.mem_union_left _ (Finset.mem_union_left _ h))) id
        · intro pr hpr hin
          exact (h2 pr hpr hin).imp (fun h => Finset.mem_insert_of_mem
            (Finset.mem_union_left _ (Finset.mem_union_left _ h))) id

/-! ### Claim C10 -/

/-- Claim C10, confirmed under the documented input shape: the
exclusivity mapping's keys are distinct base stars, its values are
distinct 100-coin stars that never appear as base stars or prerequisite
keys, and the root `DDD1` is not a 100-coin star.  Then no generated
partition's included set contains both members of an exclusivity
pair. -/
theorem C10_exclusivity_pair_never_both_included
    (adj : List (StarId × List StarId)) (alts : List (StarId × StarId))
    (eligible : Finset StarId)
    (hKN : (alts.map Prod.fst).Nodup)
    (hVN : (alts.map Prod.snd).Nodup)
    (hKV : ∀ pr ∈ alts, pr.2 ∉ alts.map Prod.fst)
    (hVA : ∀ pr ∈ alts, pr.2 ∉ adjKeys adj)
    (hD : STAR_DDD1_ID ∉ alts.map Prod.snd) :
    ∀ p ∈ get_valid_special_star_partitions adj alts eligible,
      ∀ pr ∈ alts, ¬(pr.1 ∈ p.1 ∧ pr.2 ∈ p.1) := by
  intro p hp
  simp only [get_valid_special_star_partitions] at hp
  rcases List.mem_flatMap.mp hp with ⟨pr0, hpr0, hpgen⟩
  have hord : ∀ s ∈ (get_topological_sort_of_prerequisites adj ++
      (alts.map Prod.fst).filter (fun b => b ∉ adjKeys adj)),
      s ∉ alts.map Prod.snd := by
    intro s hs hval
    rcases List.mem_map.mp hval with ⟨q, hq, hqs⟩
    rcases List.mem_append.mp hs with h | h
    · exact hVA q hq (hqs ▸ topological_sort_subset adj s h)
    · exact hKV q hq (hqs ▸ (List.mem_filter.mp h).1)
  rcases hlk : alts.lookup STAR_DDD1_ID with _ | a
  · by_cases hbe : STAR_DDD1_ID ∈ eligible ∧ STAR_DDD1_ID ∉ (∅ : Finset StarId)
    · simp [get_star_and_alternative_id_pairs, hlk, hbe] at hpr0
      subst hpr0
      refine genPartitions_exclusivity adj alts eligible hKN hVN hKV _ _ _
        hord ?_ ?_ ?_ p hpgen
      · intro pr hpr hin
        exfalso
        rw [Finset.mem_singleton] at hin
        have hin2 : pr.1 = STAR_DDD1_ID := hin
        obtain ⟨c, hlc⟩ := lookup_isSome_of_mem
          (show (STAR_DDD1_ID, pr.2) ∈ alts from hin2 ▸ hpr)
        rw [hlc] at hlk
        exact absurd hlk (by simp)
      · intro pr hpr hin
        rw [Finset.mem_singleton] at hin
        exact absurd (List.mem_map.mpr ⟨pr, hpr, hin⟩) hD
      · intro pr hpr hboth
        simp only [Finset.mem_singleton] at hboth
        exact absurd (List.mem_map.mpr
          ⟨pr, hpr, show Prod.snd pr = STAR_DDD1_ID from hboth.2⟩) hD
    · simp at hbe
      simp [get_star_and_alternative_id_pairs, hlk, hbe] at hpr0
  · have hmemca : (STAR_DDD1_ID, a) ∈ alts := mem_of_lookup_eq_some hlk
    have haNotKey : a ∉ alts.map Prod.fst := hKV (STAR_DDD1_ID, a) hmemca
    have hkeyeq : ∀ pr ∈ alts, pr.1 = STAR_DDD1_ID → pr.2 = a := fun pr hpr hc =>
      alts_key_unique hKN (show (STAR_DDD1_ID, pr.2) ∈ alts from hc ▸ hpr) hmemca
    have hvaleq : ∀ pr ∈ alts, pr.2 = a → pr.1 = STAR_DDD1_ID := fun pr hpr hc =>
      alts_val_unique hVN (show (pr.1, a) ∈ alts from hc ▸ hpr) hmemca
    by_cases hae : a ∈ eligible ∧ a ∉ (∅ : Finset StarId)
    · by_cases hbe : STAR_DDD1_ID ∈ eligible ∧ STAR_DDD1_ID ∉ (∅ : Finset StarId)
      · simp [get_star_and_alternative_id_pairs, hlk, hae, hbe] at hpr0
        rcases hpr0 with hpr0 | hpr0
        · subst hpr0
          refine genPartitions_exclusivity adj alts eligible hKN hVN hKV _ _ _
            hord ?_ ?_ ?_ p hpgen
          · intro pr hpr hin
            rw [Finset.mem_singleton] at hin
            exact Or.inl (by
              rw [hkeyeq pr hpr hin]
              exact Finset.mem_singleton_self a)
          · intro pr hpr hin
            rw [Finset.mem_singleton] at hin
            exact absurd (List.mem_map.mpr ⟨pr, hpr, hin⟩) hD
          · intro pr hpr hboth
            simp only [Finset.mem_singleton] at hboth
            exact absurd (List.mem_map.mpr
              ⟨pr, hpr, show Prod.snd pr = STAR_DDD1_ID from hboth.2⟩) hD
        · subst hpr0
          refine genPartitions_exclusivity adj alts eligible hKN hVN hKV _ _ _
            hord ?_ ?_ ?_ p hpgen
          · intro pr hpr hin
            rw [Finset.mem_singleton] at hin
            exact absurd (List.mem_map.mpr ⟨pr, hpr, hin⟩) haNotKey
          · intro pr hpr hin
            rw [Finset.mem_singleton] at hin
            exact Or.inl (by
              rw [hvaleq pr hpr hin]
              exact Finset.mem_singleton_self _)
          · intro pr hpr hboth
            simp only [Finset.mem_singleton] at hboth
            exact absurd (List.mem_map.mpr
              ⟨pr, hpr, show Prod.fst pr = a from hboth.1⟩) haNotKey
      · simp at hbe
        simp [get_star_and_alternative_id_pairs, hlk, hae, hbe] at hpr0
        subst hpr0
        refine genPartitions_exclusivity adj alts eligible hKN hVN hKV _ _ _
          hord ?_ ?_ ?_ p hpgen
        · intro pr hpr hin
          rw [Finset.mem_singleton] at hin
          exact absurd (List.mem_map.mpr ⟨pr, hpr, hin⟩) haNotKey
        · intro pr hpr hin
          rw [Finset.mem_singleton] at hin
          exact Or.inr (by
            rw [hvaleq pr hpr hin]
            exact hbe)
        · intro pr hpr hboth
          simp only [Finset.mem_singleton] at hboth
          exact absurd (List.mem_map.mpr
            ⟨pr, hpr, show Prod.fst pr = a from hboth.1⟩) haNotKey
    · simp at hae
      by_cases hbe : STAR_DDD1_ID ∈ eligible ∧ STAR_DDD1_ID ∉ (∅ : Finset StarId)
      · simp [get_star_and_alternative_id_pairs, hlk, hae, hbe] at hpr0
        subst hpr0
        refine genPartitions_exclusivity adj alts eligible hKN hVN hKV _ _ _
          hord ?_ ?_ ?_ p hpgen
        · intro pr hpr hin
          rw [Finset.mem_singleton] at hin
          exact Or.inr (by
            rw [hkeyeq pr hpr hin]
            exact hae)
        · intro pr hpr hin
          rw [Finset.mem_singleton] at hin
          exact absurd (List.mem_map.mpr ⟨pr, hpr, hin⟩) hD
        · intro pr hpr hboth
          simp only [Finset.mem_singleton] at hboth
          exact absurd (List.mem_map.mpr
            ⟨pr, hpr, show Prod.snd pr = STAR_DDD1_ID from hboth.2⟩) hD
      · simp at hbe
        simp [get_star_and_alternative_id_pairs, hlk, hae, hbe] at hpr0

/-- Witness for claim C10: a concrete exclusivity mapping and eligible
set satisfying the shape hypotheses, to which the theorem applies. -/
theorem C10_exclusivity_pair_never_both_included_witness :
    (({"B", "DDD1"} : Finset StarId), ({"B_100"} : Finset StarId)) ∈
      get_valid_special_star_partitions [] [("B", "B_100")]
        {"DDD1", "B", "B_100"} ∧
    ¬("B" ∈ ({"B", "DDD1"} : Finset StarId) ∧
      "B_100" ∈ ({"B", "DDD1"} : Finset StarId)) := by
  have hmem : (({"B", "DDD1"} : Finset StarId), ({"B_100"} : Finset StarId)) ∈
      get_valid_special_star_partitions [] [("B", "B_100")]
        {"DDD1", "B", "B_100"} := by decide
  refine ⟨hmem, ?_⟩
  exact C10_exclusivity_pair_never_both_included [] [("B", "B_100")]
    {"DDD1", "B", "B_100"} (by decide) (by decide) (by decide) (by decide)
    (by decide) _ hmem ("B", "B_100") (List.mem_cons_self _ _)

/-! ### Claim C3 -/

/-- Claim C3 is violated by the code (a code bug): because the `DDD1`
branch of `_generate_valid_partitions_recursive` (`src/optimize.py` line
447) does not `return` after recursing, the generator falls through and
also tries to include/exclude `DDD1` itself.  With the documented input
shape — `DDD1` paired with its 100-coin alternative `DDD_100`, both
eligible, no prerequisites — the generator emits a partition whose
included and excluded sets both contain `DDD1`, contradicting
`included ∩ excluded = ∅`. -/
theorem C3_included_excluded_overlap_at_failing_input :
    ∃ p ∈ get_valid_special_star_partitions [] [("DDD1", "DDD_100")]
        {"DDD1", "DDD_100"},
      "DDD1" ∈ p.1 ∧ "DDD1" ∈ p.2 := by decide

/-! ### Claim C8 -/

/-- Claim C8: for an adjacency mapping with distinct keys describing an
acyclic graph, `get_topological_sort_of_prerequisites` returns a
duplicate-free sequence containing exactly the keys (hence each key
exactly once, with length equal to the number of keys), in which every
key that is a transitive ancestor of another key appears strictly
earlier. -/
theorem C8_topological_sort_correct (adj : List (StarId × List StarId))
    (hKN : (adjKeys adj).Nodup)
    (hacyc : ∀ u, ¬ isDescendant adj u u) :
    (get_topological_sort_of_prerequisites adj).Nodup ∧
    (∀ k, k ∈ get_topological_sort_of_prerequisites adj ↔ k ∈ adjKeys adj) ∧
    (get_topological_sort_of_prerequisites adj).length = adj.length ∧
    (∀ u v, u ∈ adjKeys adj → v ∈ adjKeys adj → isDescendant adj u v →
      (get_topological_sort_of_prerequisites adj).indexOf u <
        (get_topological_sort_of_prerequisites adj).indexOf v) := by
  obtain ⟨rank, hrank⟩ := exists_rank_of_acyclic adj hacyc
  have hseedsN : (((adjKeys adj).filter
      (fun p => initInDegree adj p = 0)).reverse).Nodup :=
    List.nodup_reverse.mpr (hKN.filter _)
  have hinv7 : ∀ k ∈ adjKeys adj, k ∉ ([] : List StarId) →
      k ∉ ((adjKeys adj).filter (fun p => initInDegree adj p = 0)).reverse →
      0 < initInDegree adj k := by
    intro k hkK _ hks
    have h0 : ¬ initInDegree adj k = 0 := by
      intro hz
      exact hks (List.mem_reverse.mpr (List.mem_filter.mpr ⟨hkK, by simp [hz]⟩))
    have hge : 0 ≤ initInDegree adj k := by
      unfold initInDegree
      exact Int.ofNat_nonneg _
    omega
  have hKlen : (adjKeys adj).length = adj.length := by simp [adjKeys]
  have hfuel0 : (adjKeys adj).length ≤
      (2 * adj.length + 1) + ([] : List StarId).length := by
    rw [List.length_nil]
    omega
  obtain ⟨ma, mb, mc, md⟩ := kahnLoop_master adj hKN rank hrank
    (2 * adj.length + 1) (initInDegree adj)
    (((adjKeys adj).filter (fun p => initInDegree adj p = 0)).reverse) []
    (by simpa using hseedsN)
    (fun x hx => absurd hx (List.not_mem_nil x))
    (fun x hx => (List.mem_filter.mp (List.mem_reverse.mp hx)).1)
    (fun v => (remInDegree_nil adj v).symm)
    (fun k hk => of_decide_eq_true
      (List.mem_filter.mp (List.mem_reverse.mp hk)).2)
    (fun k hk => absurd hk (List.not_mem_nil k))
    hinv7
    (fun v hv => absurd hv (List.not_mem_nil v))
    hfuel0
  refine ⟨ma, fun k => ⟨fun hk => mb k hk, fun hk => mc k hk⟩, ?_, ?_⟩
  · have h1 := List.toFinset_card_of_nodup ma
    have h2 := List.toFinset_card_of_nodup hKN
    have h3 : (kahnLoop adj (2 * adj.length + 1) (initInDegree adj)
        (((adjKeys adj).filter (fun p => initInDegree adj p = 0)).reverse)
        []).toFinset = (adjKeys adj).toFinset := by
      apply Finset.ext
      intro x
      rw [List.mem_toFinset, List.mem_toFinset]
      exact ⟨fun hx => mb x hx, fun hx => mc x hx⟩
    show (kahnLoop adj (2 * adj.length + 1) (initInDegree adj)
        (((adjKeys adj).filter (fun p => initInDegree adj p = 0)).reverse)
        ([] : List StarId)).length = adj.length
    rw [← h1, h3, h2, hKlen]
  · intro u v huK hvK hdesc
    have hgen : ∀ c, Relation.TransGen (adjEdge adj) u c → c ∈ adjKeys adj →
        (kahnLoop adj (2 * adj.length + 1) (initInDegree adj)
          (((adjKeys adj).filter (fun p => initInDegree adj p = 0)).reverse)
          []).indexOf u <
        (kahnLoop adj (2 * adj.length + 1) (initInDegree adj)
          (((adjKeys adj).filter (fun p => initInDegree adj p = 0)).reverse)
          []).indexOf c := by
      intro c hc
      induction hc with
      | single hE =>
        intro hcK
        exact (md _ (mc _ hcK) u hE).2
      | tail hT hE ih =>
        intro hcK
        have hbK := edge_source_key hE
        have hx1 := ih hbK
        have hx2 := (md _ (mc _ hcK) _ hE).2
        omega
    exact hgen v hdesc hvK

/-- Witness for claim C8: the two-key chain `A → B → C` is acyclic (via
an explicit rank function), and the theorem yields a duplicate-free
two-element ordering with `A` before `B`. -/
theorem C8_topological_sort_correct_witness :
    (get_topological_sort_of_prerequisites
      [("A", ["B"]), ("B", ["C"])]).Nodup ∧
    ("A" ∈ get_topological_sort_of_prerequisites [("A", ["B"]), ("B", ["C"])] ↔
      "A" ∈ adjKeys [("A", ["B"]), ("B", ["C"])]) ∧
    (get_topological_sort_of_prerequisites
      [("A", ["B"]), ("B", ["C"])]).length = 2 ∧
    (get_topological_sort_of_prerequisites
      [("A", ["B"]), ("B", ["C"])]).indexOf "A" <
      (get_topological_sort_of_prerequisites
        [("A", ["B"]), ("B", ["C"])]).indexOf "B" := by
  have hmono : ∀ a b, adjEdge [("A", ["B"]), ("B", ["C"])] a b →
      (fun s : StarId => if s = "A" then (0 : ℤ)
        else if s = "B" then 1 else if s = "C" then 2 else 3) a <
      (fun s : StarId => if s = "A" then (0 : ℤ)
        else if s = "B" then 1 else if s = "C" then 2 else 3) b := by
    intro a b hE
    obtain ⟨ds, hl, hb⟩ := edge_from_lookup hE
    have hmem := mem_of_lookup_eq_some hl
    rcases List.mem_cons.mp hmem with h | h
    · rw [Prod.mk.injEq] at h
      obtain ⟨ha, hds⟩ := h
      subst ha
      subst hds
      have hb2 : b = "B" := by simpa using hb
      subst hb2
      decide
    · have h2 : (a, ds) = ("B", ["C"]) := by simpa using h
      rw [Prod.mk.injEq] at h2
      obtain ⟨ha, hds⟩ := h2
      subst ha
      subst hds
      have hb2 : b = "C" := by simpa using hb
      subst hb2
      decide
  have hacyc : ∀ u, ¬ isDescendant [("A", ["B"]), ("B", ["C"])] u u :=
    fun u hu => absurd (rank_lt_of_transGen hmono hu) (lt_irrefl _)
  have h := C8_topological_sort_correct [("A", ["B"]), ("B", ["C"])]
    (by decide) hacyc
  have hedgeAB : adjEdge [("A", ["B"]), ("B", ["C"])] "A" "B" := by
    show ("B" : StarId) ∈ ((([("A", ["B"]), ("B", ["C"])] :
      List (StarId × List StarId)).lookup "A").getD [])
    decide
  exact ⟨h.1, h.2.1 "A", h.2.2.1, h.2.2.2 "A" "B" (by decide) (by decide)
    (Relation.TransGen.single hedgeAB)⟩

/-! ### Claim C2 -/

/-- Claim C2 (amended): every selection returned successfully by
`get_optimal_route` draws at most `max_num_upper_level_stars` *items*
from the upper-level locations.  The pre-check passes only partitions
with at most the quota, the first augmentation phase is restricted to
non-upper locations, and the second phase starts counting from at least
`NUM_STARS_IN_ROUTE - quota + (partition upper items)` so it can add at
most `quota - (partition upper items)` further items.  The claim's
*unit* counting (a 100-coin item as 2) is not enforced: a 100-coin star
in an upper-level location contributes 2 units but is counted once by
lines 110-111 of `src/optimize.py`, so the unit total can reach
`quota + 1` (see the counterexample). -/
theorem C2_upper_level_item_quota_amended
    (star_time_tuples : List (Time × StarId)) (maxUpper : ℤ)
    (adj : List (StarId × List StarId)) (alts : List (StarId × StarId))
    (locs : StarId → String) (req : StarId → ℤ)
    (S : Finset StarId) (t : Time)
    (h : get_optimal_route star_time_tuples maxUpper adj alts locs req
      = .ok (S, t)) :
    partitionNumUpperLevel locs S ≤ maxUpper := by
  simp only [get_optimal_route] at h
  split at h
  · rename_i bt bs heq
    rw [Except.ok.injEq] at h
    injection h with h1 h2
    subst h1 h2
    rcases routeFold_some _ _ locs req maxUpper _ none bt bs heq with
      hnone | ⟨p, hpmem, t1, S1, hskip, hph1, hph2⟩
    · exact absurd hnone (by simp)
    · have hinv1 : HeapInv locs req (ALL_LOCATIONS \ UPPER_LEVEL_LOCATIONS) [] :=
        fun e he => absurd he (List.not_mem_nil e)
      have hinv2 : HeapInv locs req ALL_LOCATIONS [] :=
        fun e he => absurd he (List.not_mem_nil e)
      obtain ⟨tr1, hS1, hcons1, hprops1, _⟩ :=
        addStarsLoop_trace locs req (hundredCoinStarIds alts)
          (ALL_LOCATIONS \ UPPER_LEVEL_LOCATIONS) p.2
          (NUM_STARS_IN_ROUTE - maxUpper + partitionNumUpperLevel locs p.1)
          _ _ _ _ _ _ _ _ hinv1 hph1
      obtain ⟨tr2, hS2, hcons2, hprops2, _⟩ :=
        addStarsLoop_trace locs req (hundredCoinStarIds alts)
          ALL_LOCATIONS p.2 NUM_STARS_IN_ROUTE _ _ _ _ _ _ _ _ hinv2 hph2
      -- phase 1 adds no upper-level items
      have hz1 : partitionNumUpperLevel locs ((tr1.map Prod.fst).toFinset) = 0 := by
        apply numUpper_eq_zero
        intro x hx
        rw [List.mem_toFinset] at hx
        obtain ⟨e, he, hex⟩ := List.mem_map.mp hx
        have hloc := (hprops1 e he).1
        rw [Finset.mem_sdiff] at hloc
        exact hex ▸ hloc.2
      have hu1 := numUpper_union_le locs p.1 ((tr1.map Prod.fst).toFinset)
      rw [← hS1] at hu1
      -- phase 2 adds at most one upper-level item per trace entry
      have hu2 := numUpper_union_le locs S1 ((tr2.map Prod.fst).toFinset)
      rw [← hS2] at hu2
      have hcard2 : partitionNumUpperLevel locs ((tr2.map Prod.fst).toFinset)
          ≤ (tr2.length : ℤ) := by
        have h1 := numUpper_le_card locs ((tr2.map Prod.fst).toFinset)
        have h2 : ((tr2.map Prod.fst).toFinset).card ≤ (tr2.map Prod.fst).length :=
          (tr2.map Prod.fst).toFinset_card_le
        rw [List.length_map] at h2
        have h3 : (((tr2.map Prod.fst).toFinset).card : ℤ) ≤ (tr2.length : ℤ) := by
          exact_mod_cast h2
        omega
      have hc2ge : NUM_STARS_IN_ROUTE - maxUpper + partitionNumUpperLevel locs p.1
          ≤ max (partitionStartingCount (hundredCoinStarIds alts) p.1)
            (NUM_STARS_IN_ROUTE - maxUpper + partitionNumUpperLevel locs p.1) :=
        le_max_right _ _
      rcases trace_length_le (hundredCoinStarIds alts) NUM_STARS_IN_ROUTE tr2 _
          hcons2 (fun e he => (hprops2 e he).2.2) with hnil | hlen
      · have hL0 : (tr2.length : ℤ) = 0 := by rw [hnil]; rfl
        omega
      · omega
  · rename_i heq
    exact absurd h (by simp)

section
attribute [local semireducible] Rat.add Rat.mul Rat.inv Rat.sub
set_option maxRecDepth 1000000

/-- Counterexample to claim C2 as stated: in the quota scenario with
`max_num_upper_level_stars = 1`, `get_optimal_route` succeeds with a
selection containing the 100-coin star `B_100` in an upper-level
location — 2 upper-level *units*, exceeding the quota of 1. -/
theorem C2_upper_level_unit_quota_cex :
    ∃ p : Finset StarId × Time,
      get_optimal_route quotaTuples 1 [] [("B", "B_100")] quotaLocs
        (fun _ => 0) = .ok p ∧
      1 < upperLevelUnitCount (hundredCoinStarIds [("B", "B_100")])
        quotaLocs p.1 := by
  have hchk : (match get_optimal_route quotaTuples 1 [] [("B", "B_100")]
      quotaLocs (fun _ => 0) with
    | .ok q => decide (1 < upperLevelUnitCount
        (hundredCoinStarIds [("B", "B_100")]) quotaLocs q.1)
    | .error _ => false) = true := by decide
  rcases hrun : get_optimal_route quotaTuples 1 [] [("B", "B_100")] quotaLocs
      (fun _ => 0) with e | q
  · rw [hrun] at hchk
    exact Bool.noConfusion hchk
  · rw [hrun] at hchk
    exact ⟨q, rfl, of_decide_eq_true hchk⟩

/-- Witness for claim C2 (amended): in the same quota scenario the
returned selection has exactly one upper-level *item*, within the
quota. -/
theorem C2_upper_level_item_quota_amended_witness :
    partitionNumUpperLevel quotaLocs
      (match get_optimal_route quotaTuples 1 [] [("B", "B_100")] quotaLocs
          (fun _ => 0) with
        | .ok q => q.1
        | .error _ => ∅) ≤ 1 := by
  have hchk : (match get_optimal_route quotaTuples 1 [] [("B", "B_100")]
      quotaLocs (fun _ => 0) with
    | .ok _ => true
    | .error _ => false) = true := by decide
  rcases hrun : get_optimal_route quotaTuples 1 [] [("B", "B_100")] quotaLocs
      (fun _ => 0) with e | q
  · rw [hrun] at hchk
    exact Bool.noConfusion hchk
  · exact C2_upper_level_item_quota_amended quotaTuples 1 [] [("B", "B_100")]
      quotaLocs (fun _ => 0) q.1 q.2 (by rw [hrun])

end

/-! ### Claim C4 -/

/-- Claim C4 (amended): descendant closure of the excluded sets holds for
every excluded star whose exclusivity partner is *not* in the included
set.  When a star enters the excluded set through the exclusion branch of
`_generate_valid_partitions_recursive` (`src/optimize.py` lines 470-497),
all of its transitive descendants and their 100-coin alternatives are
excluded with it; but a star excluded as the unused member of an
exclusivity pair (lines 453-468, partner included) brings no descendants
along, so the claim's unconditional closure is false (see the
counterexample).  Hypotheses: 100-coin values have no adjacency entries
and are not exclusivity keys, the documented input shape. -/
theorem C4_excluded_descendants_closed_amended
    (adj : List (StarId × List StarId)) (alts : List (StarId × StarId))
    (eligible : Finset StarId)
    (hAV : ∀ v ∈ alts.map Prod.snd, alts.lookup v = none)
    (hVA : ∀ pr ∈ alts, pr.2 ∉ adjKeys adj) :
    ∀ p ∈ get_valid_special_star_partitions adj alts eligible,
      ∀ e ∈ p.2,
        (∀ pr ∈ alts, pr.1 = e → pr.2 ∉ p.1) →
        (∀ pr ∈ alts, pr.2 = e → pr.1 ∉ p.1) →
        ∀ d, isDescendant adj e d →
          d ∈ p.2 ∧ ∀ v, alts.lookup d = some v → v ∈ p.2 := by
  intro p hp e he hn1 hn2
  simp only [get_valid_special_star_partitions] at hp
  rcases List.mem_flatMap.mp hp with ⟨pr0, hpr0, hpgen⟩
  have hI : ∀ e' ∈ (match pr0.2 with
      | some ex => ({ex} : Finset StarId)
      | none => (∅ : Finset StarId)),
      (∃ x, (e', x) ∈ alts ∧ x ∈ ({pr0.1} : Finset StarId)) ∨
      (∃ b, (b, e') ∈ alts ∧ b ∈ ({pr0.1} : Finset StarId)) ∨
      (∀ d, isDescendant adj e' d →
        d ∈ (match pr0.2 with
          | some ex => ({ex} : Finset StarId)
          | none => (∅ : Finset StarId)) ∧
        ∀ v, alts.lookup d = some v →
          v ∈ (match pr0.2 with
            | some ex => ({ex} : Finset StarId)
            | none => (∅ : Finset StarId))) := by
    rcases hpr2 : pr0.2 with _ | a
    · simp only [hpr2]
      exact fun e' he' => absurd he' (Finset.not_mem_empty e')
    · simp only [hpr2]
      intro e' he'
      rw [Finset.mem_singleton] at he'
      subst he'
      -- the seed pair comes from _get_star_and_alternative_id_pairs, so
      -- the excluded member's partner is the included member pr0.1
      rcases hseed : alts.lookup STAR_DDD1_ID with _ | b
      · by_cases hde : STAR_DDD1_ID ∈ eligible
        · simp [get_star_and_alternative_id_pairs, hseed, hde] at hpr0
          subst hpr0
          exact absurd hpr2 (by simp)
        · simp [get_star_and_alternative_id_pairs, hseed, hde] at hpr0
      · have hmemb : (STAR_DDD1_ID, b) ∈ alts := mem_of_lookup_eq_some hseed
        by_cases hbse : b ∈ eligible
        · by_cases hde : STAR_DDD1_ID ∈ eligible
          · simp [get_star_and_alternative_id_pairs, hseed, hbse, hde] at hpr0
            rcases hpr0 with hpr0 | hpr0
            · subst hpr0
              simp only [Option.some.injEq] at hpr2
              subst hpr2
              exact Or.inr (Or.inl ⟨STAR_DDD1_ID, hmemb, Finset.mem_singleton_self _⟩)
            · subst hpr0
              simp only [Option.some.injEq] at hpr2
              subst hpr2
              exact Or.inl ⟨b, hmemb, Finset.mem_singleton_self _⟩
          · simp [get_star_and_alternative_id_pairs, hseed, hbse, hde] at hpr0
            subst hpr0
            exact absurd hpr2 (by simp)
        · by_cases hde : STAR_DDD1_ID ∈ eligible
          · simp [get_star_and_alternative_id_pairs, hseed, hbse, hde] at hpr0
            subst hpr0
            exact absurd hpr2 (by simp)
          · simp [get_star_and_alternative_id_pairs, hseed, hbse, hde] at hpr0
  have hmain := genPartitions_descendants adj alts eligible hAV hVA _ _ _
    hI p hpgen e he
  rcases hmain with ⟨x, hx, hxm⟩ | ⟨b, hb, hbm⟩ | h3
  · exact absurd hxm (hn1 (e, x) hx rfl)
  · exact absurd hbm (hn2 (b, e) hb rfl)
  · exact h3

/-- Counterexample to claim C4 as stated: with adjacency `{B: [X]}` and
exclusivity pair `(B, A)`, the partition that includes `A` excludes its
base star `B` without excluding `B`'s descendant `X`. -/
theorem C4_descendant_not_excluded_cex :
    isDescendant [("B", ["X"])] "B" "X" ∧
    ∃ p ∈ get_valid_special_star_partitions [("B", ["X"])] [("B", "A")]
        {"DDD1", "B", "A"},
      "B" ∈ p.2 ∧ "X" ∉ p.2 := by
  constructor
  · exact Relation.TransGen.single
      (show ("X" : StarId) ∈ ((([("B", ["X"])] :
        List (StarId × List StarId)).lookup "B").getD []) by decide)
  · decide

/-- Witness for claim C4 (amended): in the same scenario, the partition
that excludes `B` through the exclusion branch (no partner included)
does carry `B`'s descendant `X` in its excluded set. -/
theorem C4_excluded_descendants_closed_amended_witness :
    (({"DDD1"} : Finset StarId), ({"A", "B", "X"} : Finset StarId)) ∈
      get_valid_special_star_partitions [("B", ["X"])] [("B", "A")]
        {"DDD1", "B", "A"} ∧
    "X" ∈ ({"A", "B", "X"} : Finset StarId) := by
  have hmem : (({"DDD1"} : Finset StarId), ({"A", "B", "X"} : Finset StarId)) ∈
      get_valid_special_star_partitions [("B", ["X"])] [("B", "A")]
        {"DDD1", "B", "A"} := by decide
  refine ⟨hmem, ?_⟩
  have hedge : ("X" : StarId) ∈ ((([("B", ["X"])] :
      List (StarId × List StarId)).lookup "B").getD []) := by decide
  exact (C4_excluded_descendants_closed_amended [("B", ["X"])] [("B", "A")]
    {"DDD1", "B", "A"} (by decide) (by decide) _ hmem "B" (by decide)
    (by decide) (by decide) "X" (Relation.TransGen.single hedge)).1

end SM64
